import Mathlib

set_option maxRecDepth 8000

/-!
Verification of the streaming line-aligned chunker in src/main.rs.

Modelling conventions:
* Byte sequences are List Nat (each element a byte value).
* Decoded text is List Nat of Unicode code points (the characters of a Rust
  String).  Rust str positions (rfind results, slice bounds) are byte indices
  into the UTF-8 representation, but every such index used by the program sits
  on a character boundary, so we use character indices and List.take the
  corresponding character-level slices; re-encoding a decoded slice depends
  only on its characters, hence the two views agree.
* Fallible slicing (Rust index-out-of-range panics) is modelled with Option:
  none means the process panics.
-/

/-- The Unicode replacement character U+FFFD emitted for malformed input. -/
def repChar : Nat := 0xFFFD

/-- Unicode scalar values: the code points a Rust char can hold. -/
def ScalarValue (p : Nat) : Prop := p < 0x110000 ∧ ¬ (0xD800 ≤ p ∧ p ≤ 0xDFFF)

instance : DecidablePred ScalarValue := fun p => by unfold ScalarValue; infer_instance

/-- UTF-8 encoding of one scalar value (the bytes Rust char::encode_utf8 emits). -/
def utf8EncodeChar (p : Nat) : List Nat :=
  if p < 0x80 then [p]
  else if p < 0x800 then [0xC0 + p / 0x40, 0x80 + p % 0x40]
  else if p < 0x10000 then
    [0xE0 + p / 0x1000, 0x80 + p / 0x40 % 0x40, 0x80 + p % 0x40]
  else
    [0xF0 + p / 0x40000, 0x80 + p / 0x1000 % 0x40, 0x80 + p / 0x40 % 0x40, 0x80 + p % 0x40]

/-- UTF-8 encoding of a string of code points; models encoding_rs encode to
UTF-8 (every char is representable, no numeric character references arise). -/
def utf8Encode (s : List Nat) : List Nat := (s.map utf8EncodeChar).flatten

/-- Decoder state of the WHATWG UTF-8 decoder: the number of continuation
bytes still needed, the accumulated code point bits, and the admissible range
for the next byte (tightened after the lead byte to exclude overlong,
surrogate and beyond-U+10FFFF forms). -/
structure Utf8State where
  needed : Nat
  acc : Nat
  lo : Nat
  hi : Nat

/-- Initial decoder state: no sequence in progress. -/
def u8Ground : Utf8State := ⟨0, 0, 0x80, 0xBF⟩

/-- Process one byte in the ground state: ASCII is emitted, a valid lead byte
starts a sequence with the WHATWG second-byte range, anything else is a
malformed-sequence error producing U+FFFD. -/
def u8Lead (b : Nat) : List Nat × Bool × Utf8State :=
  if b < 0x80 then ([b], false, u8Ground)
  else if b < 0xC2 then ([repChar], true, u8Ground)
  else if b ≤ 0xDF then ([], false, ⟨1, b - 0xC0, 0x80, 0xBF⟩)
  else if b ≤ 0xEF then
    ([], false, ⟨2, b - 0xE0, if b = 0xE0 then 0xA0 else 0x80, if b = 0xED then 0x9F else 0xBF⟩)
  else if b ≤ 0xF4 then
    ([], false, ⟨3, b - 0xF0, if b = 0xF0 then 0x90 else 0x80, if b = 0xF4 then 0x8F else 0xBF⟩)
  else ([repChar], true, u8Ground)

/-- One transition of the WHATWG UTF-8 decoder: emitted code points, whether
an error was recorded, and the next state.  A byte outside the admissible
continuation range records an error and is reconsumed as a lead byte. -/
def u8Step (st : Utf8State) (b : Nat) : List Nat × Bool × Utf8State :=
  if st.needed = 0 then u8Lead b
  else if st.lo ≤ b ∧ b ≤ st.hi then
    if st.needed = 1 then ([st.acc * 0x40 + (b - 0x80)], false, u8Ground)
    else ([], false, ⟨st.needed - 1, st.acc * 0x40 + (b - 0x80), 0x80, 0xBF⟩)
  else
    let r := u8Lead b
    (repChar :: r.1, true, r.2.2)

/-- Run the UTF-8 decoder from a state; at end of input an unfinished
sequence yields a single U+FFFD. -/
def utf8DecodeFrom : Utf8State → List Nat → List Nat × Bool
  | st, [] => if st.needed = 0 then ([], false) else ([repChar], true)
  | st, b :: rest =>
    let s := u8Step st b
    let r := utf8DecodeFrom s.2.2 rest
    (s.1 ++ r.1, s.2.1 || r.2)

/-- WHATWG UTF-8 decode with replacement, as encoding_rs performs it:
the decoded code points and whether any malformed sequence was met. -/
def utf8DecodeGo (bs : List Nat) : List Nat × Bool := utf8DecodeFrom u8Ground bs

/-- Run the WHATWG UTF-16 decoder (isLE selects little endian) with a pending
lead surrogate.  Only reachable through BOM sniffing in Encoding::decode.
Surrogate pairs combine; a lone surrogate is an error; a lead surrogate
followed by a non-trail unit is an error and the unit is reprocessed; at end
of input a pending lead surrogate or odd trailing byte is one error. -/
def utf16DecodeFrom (isLE : Bool) : Option Nat → List Nat → List Nat × Bool
  | pending, [] =>
    match pending with
    | some _ => ([repChar], true)
    | none => ([], false)
  | _, [_] => ([repChar], true)
  | pending, b0 :: b1 :: rest =>
    let u := if isLE then b0 + 256 * b1 else 256 * b0 + b1
    match pending with
    | some lead =>
      if 0xDC00 ≤ u ∧ u ≤ 0xDFFF then
        let r := utf16DecodeFrom isLE none rest
        ((0x10000 + (lead - 0xD800) * 0x400 + (u - 0xDC00)) :: r.1, r.2)
      else if 0xD800 ≤ u ∧ u ≤ 0xDBFF then
        let r := utf16DecodeFrom isLE (some u) rest
        (repChar :: r.1, true)
      else
        let r := utf16DecodeFrom isLE none rest
        (repChar :: u :: r.1, true)
    | none =>
      if 0xD800 ≤ u ∧ u ≤ 0xDBFF then utf16DecodeFrom isLE (some u) rest
      else if 0xDC00 ≤ u ∧ u ≤ 0xDFFF then
        let r := utf16DecodeFrom isLE none rest
        (repChar :: r.1, true)
      else
        let r := utf16DecodeFrom isLE none rest
        (u :: r.1, r.2)

/-- WHATWG UTF-16 decode with replacement. -/
def utf16DecodeGo (isLE : Bool) (bs : List Nat) : List Nat × Bool :=
  utf16DecodeFrom isLE none bs

/-- An encoding as used by the program: decode bytes to (text, had_errors)
and encode text back to bytes, the two encoding_rs entry points it calls. -/
structure EncodingM where
  decode : List Nat → List Nat × Bool
  encode : List Nat → List Nat

/-- The UTF_8 static encoding.  Encoding::decode performs BOM sniffing over
the whole buffer: a UTF-8/UTF-16LE/UTF-16BE BOM selects that decoder and is
removed from the output; otherwise the bytes decode as UTF-8. -/
def utf8M : EncodingM where
  decode bs :=
    if [0xEF, 0xBB, 0xBF].isPrefixOf bs then utf8DecodeGo (bs.drop 3)
    else if [0xFF, 0xFE].isPrefixOf bs then utf16DecodeGo true (bs.drop 2)
    else if [0xFE, 0xFF].isPrefixOf bs then utf16DecodeGo false (bs.drop 2)
    else utf8DecodeGo bs
  encode := utf8Encode

/-- Search positions k, k-1, ..., 0 for the first one where pat starts. -/
def rfindFrom (t pat : List Nat) : Nat → Option Nat
  | 0 => if pat.isPrefixOf t then some 0 else none
  | k + 1 => if pat.isPrefixOf (t.drop (k + 1)) then some (k + 1) else rfindFrom t pat k

/-- str::rfind for a string pattern: the start position of the rightmost
occurrence of pat in t (character index; Rust reports the equivalent byte
index of the same boundary). -/
def rfind (t pat : List Nat) : Option Nat := rfindFrom t pat t.length

/-- Rust String::len of the configured line ending: its UTF-8 byte length
(line_ending is a String, so .len() is UTF-8 bytes whatever the encoding). -/
def lineEndingLen (lineEnding : List Nat) : Nat := (utf8Encode lineEnding).length

/-- main.rs find_last_line_ending (lines 93-115): decode the span, rfind the
line ending in the decoded text, and measure the text before the match in
re-encoded bytes.  Returns none for an empty span or when no occurrence
exists. -/
def find_last_line_ending (data : List Nat) (lineEnding : List Nat) (enc : EncodingM) :
    Option Nat :=
  if data = [] then none
  else
    let dec := enc.decode data
    match rfind dec.1 lineEnding with
    | some lastPos => some (enc.encode (dec.1.take lastPos)).length
    | none => none

/-- main.rs BUFFER_SIZE: the fixed 8 MiB read-buffer size. -/
def BUFFER_SIZE : Nat := 8 * 1024 * 1024

/-- main.rs DEFAULT_CHUNK_SIZE: 100 MiB. -/
def DEFAULT_CHUNK_SIZE : Nat := 100 * 1024 * 1024

/-- The end_pos computed for a freshly read buffer (main.rs lines 166-172):
initialized to n (the dead n == 0 arm inside the n > 0 branch also yields
buffer.len() = n), then, for a non-empty buffer, moved to one past the last
byte of the last line-ending occurrence when one is found.  The searched
slice buffer[..end_pos] is the whole buffer since end_pos starts at n. -/
def stepEndPos (enc : EncodingM) (lineEnding : List Nat) (buffer : List Nat) : Nat :=
  if buffer = [] then buffer.length
  else
    match find_last_line_ending buffer lineEnding enc with
    | some lastPos => lastPos + lineEndingLen lineEnding
    | none => buffer.length

/-- The cut decision on the accumulated chunk (main.rs lines 178-193): once
the chunk has reached chunk_size, search it from last_newline_pos for the
last line ending; when found, the chunk is split one past it: the front is
emitted with the current chunk number, the rest (with last_newline_pos reset
to 0 and the number advanced) carries over.  Returns the new (current_chunk,
last_newline_pos, chunk_number, emitted chunk); none models an out-of-bounds
slice, which panics in Rust. -/
def splitDecision (enc : EncodingM) (chunkSize : Nat) (lineEnding : List Nat)
    (lastNewlinePos chunkNumber : Nat) (chunk1 : List Nat) :
    Option (List Nat × Nat × Nat × Option (Nat × List Nat)) :=
  if chunk1.length ≥ chunkSize then
    if lastNewlinePos ≤ chunk1.length then
      match find_last_line_ending (chunk1.drop lastNewlinePos) lineEnding enc with
      | some lastPos =>
        let splitPos := lastNewlinePos + lastPos + lineEndingLen lineEnding
        if splitPos ≤ chunk1.length then
          some (chunk1.drop splitPos, 0, chunkNumber + 1,
            some (chunkNumber, chunk1.take splitPos))
        else none
      | none => some (chunk1, lastNewlinePos, chunkNumber, none)
    else none
  else some (chunk1, lastNewlinePos, chunkNumber, none)

/-- One iteration of the read loop for a non-empty read (main.rs lines
165-199): append buffer[..end_pos] to the current chunk, apply the cut
decision, then append the trailing buffer[end_pos..].  Returns the new
(current_chunk, last_newline_pos, chunk_number), plus the chunk written this
iteration if any; none models an out-of-bounds slice, which panics in
Rust. -/
def chunkStep (enc : EncodingM) (chunkSize : Nat) (lineEnding : List Nat)
    (currentChunk : List Nat) (lastNewlinePos chunkNumber : Nat) (buffer : List Nat) :
    Option ((List Nat × Nat × Nat) × Option (Nat × List Nat)) :=
  let endPos := stepEndPos enc lineEnding buffer
  if endPos ≤ buffer.length then
    match splitDecision enc chunkSize lineEnding lastNewlinePos chunkNumber
        (currentChunk ++ buffer.take endPos) with
    | none => none
    | some (chunk2, lnp2, num2, em) =>
      let chunk3 := if endPos < buffer.length then chunk2 ++ buffer.drop endPos else chunk2
      some ((chunk3, lnp2, num2), em)
  else none

/-- The read loop of main (main.rs lines 158-206).  Each iteration reads up
to BUFFER_SIZE bytes from the remaining input; at end of input a non-empty
current chunk is written as the final chunk.  Returns the written chunks as
(chunk_number, pre-compression bytes) in emission order, or none when an
iteration panics. -/
def chunkLoop (enc : EncodingM) (chunkSize : Nat) (lineEnding : List Nat)
    (remaining currentChunk : List Nat) (lastNewlinePos chunkNumber : Nat)
    (emitted : List (Nat × List Nat)) : Option (List (Nat × List Nat)) :=
  if (remaining.take BUFFER_SIZE).length = 0 ∧ currentChunk = [] then some emitted.reverse
  else if 0 < (remaining.take BUFFER_SIZE).length then
    match chunkStep enc chunkSize lineEnding currentChunk lastNewlinePos chunkNumber
        (remaining.take BUFFER_SIZE) with
    | none => none
    | some ((chunk3, lnp2, num2), em) =>
      chunkLoop enc chunkSize lineEnding (remaining.drop BUFFER_SIZE) chunk3 lnp2 num2
        (match em with
         | some e => e :: emitted
         | none => emitted)
  else some (((chunkNumber, currentChunk) :: emitted).reverse)
termination_by remaining.length
decreasing_by
  simp only [List.length_drop]
  simp only [List.length_take, BUFFER_SIZE] at *
  omega

/-- Run the whole chunking pipeline of main on an input byte sequence, from
the initial state (empty chunk, last_newline_pos = 0, chunk_number = 1). -/
def runChunker (enc : EncodingM) (chunkSize : Nat) (lineEnding : List Nat)
    (input : List Nat) : Option (List (Nat × List Nat)) :=
  chunkLoop enc chunkSize lineEnding input [] 0 1 []

/-- Base-10 digits of n, least significant first (fuel-based so that it
computes by kernel reduction; fuel n suffices because n / 10 < n). -/
def digitsGo : Nat → Nat → List Nat
  | _, 0 => []
  | 0, _ + 1 => []
  | fuel + 1, n + 1 => (n + 1) % 10 :: digitsGo fuel ((n + 1) / 10)

/-- Decimal digit characters of n as printed by Rust integer formatting. -/
def decimalChars (n : Nat) : List Char :=
  let ds := ((digitsGo n n).reverse).map (fun d => Char.ofNat (48 + d))
  if ds = [] then ['0'] else ds

/-- Rust {:03} formatting: decimal digits zero-padded on the left to width 3
(wider numbers print all their digits). -/
def pad3 (n : Nat) : List Char :=
  List.replicate (3 - (decimalChars n).length) '0' ++ decimalChars n

/-- The output path built by write_compressed_chunk (main.rs line 119):
format "{}.{:03}.zst" over the output prefix (called stem here) and the
chunk number. -/
def chunkFilePath (stem : List Char) (chunkNumber : Nat) : List Char :=
  stem ++ '.' :: pad3 chunkNumber ++ ['.', 'z', 's', 't']

/-- Lexicographic byte order on file names (all names involved are ASCII, so
characterwise comparison of code points is byte order). -/
def lexLt : List Char → List Char → Bool
  | [], [] => false
  | [], _ :: _ => true
  | _ :: _, [] => false
  | a :: as, b :: bs =>
    if a.toNat < b.toNat then true
    else if a.toNat = b.toNat then lexLt as bs
    else false

/-- The encodings accepted by Config::from_args. -/
inductive EncodingName where
  | utf8
  | gbk
deriving DecidableEq

/-- main.rs Config (lines 12-19).  The output_prefix field is called stem
here; line_ending holds the code points of the parsed line-ending String. -/
structure Config where
  input_path : List Char
  stem : List Char
  chunk_size : Nat
  line_ending : List Nat
  encoding : EncodingName
deriving DecidableEq

/-- The configuration errors Config::from_args reports, one per Err branch
of main.rs lines 25-81 in source order: too few arguments, unparsable
chunk_size_mb, empty custom line ending, unknown line-ending option,
unsupported encoding. -/
inductive ConfigError where
  | usage
  | badChunkSize
  | emptyCustomLineEnding
  | badLineEnding
  | badEncoding
deriving DecidableEq

/-- ASCII uppercasing of one character; agrees with Rust str::to_uppercase
on the ASCII text that the option matching compares against. -/
def upChar (c : Char) : Char :=
  if 'a' ≤ c ∧ c ≤ 'z' then Char.ofNat (c.toNat - 32) else c

/-- str::to_uppercase over an argument string. -/
def toUpperL (s : List Char) : List Char := s.map upChar

/-- str::replace for the two-character pattern [a, b]: leftmost-first,
non-overlapping, each occurrence replaced by the character r. -/
def replace2 (a b r : Char) : List Char → List Char
  | [] => []
  | [c] => [c]
  | c :: d :: rest =>
    if c = a ∧ d = b then r :: replace2 a b r rest
    else c :: replace2 a b r (d :: rest)

/-- usize::from_str: an optional leading plus sign, then one or more ASCII
digits, with the value below 2 ^ 64 (usize on a 64-bit target); anything
else is Err, which from_args maps to the bad-chunk-size error. -/
def parseUsize (s : List Char) : Option Nat :=
  let t := match s with
    | '+' :: r => r
    | _ => s
  if t = [] then none
  else if t.all (fun c => decide (48 ≤ c.toNat ∧ c.toNat ≤ 57)) then
    let v := t.foldl (fun a c => a * 10 + (c.toNat - 48)) 0
    if v < 2 ^ 64 then some v else none
  else none

/-- The line_ending match of from_args (main.rs lines 53-71) applied to the
uppercased fifth argument; custom endings get the escape sequences for
newline and carriage return replaced and must be non-empty. -/
def parseLineEndingArg (arg : List Char) : Except ConfigError (List Nat) :=
  let u := toUpperL arg
  if u = "LF".toList then .ok [10]
  else if u = "CRLF".toList then .ok [13, 10]
  else if u = "CR".toList then .ok [13]
  else if "CUSTOM:".toList.isPrefixOf u then
    let custom := replace2 '\\' 'r' '\r' (replace2 '\\' 'n' '\n' (u.drop 7))
    if custom = [] then .error .emptyCustomLineEnding
    else .ok (custom.map Char.toNat)
  else .error .badLineEnding

/-- The encoding match of from_args (main.rs lines 73-81) applied to the
uppercased sixth argument. -/
def parseEncodingArg (arg : List Char) : Except ConfigError EncodingName :=
  let u := toUpperL arg
  if u = "UTF-8".toList then .ok .utf8
  else if u = "GBK".toList then .ok .gbk
  else .error .badEncoding

/-- Config::from_args (main.rs lines 22-90) over the argument vector
(args[0] is the program name).  The chunk size, line ending and encoding
are evaluated in source order with error propagation; the parsed
chunk_size_mb is scaled to bytes with usize (wrapping) multiplication. -/
def fromArgs (args : List (List Char)) : Except ConfigError Config :=
  if args.length < 3 then .error .usage
  else
    let chunkSizeR : Except ConfigError Nat :=
      if 4 ≤ args.length then
        match parseUsize (args.getD 3 []) with
        | some v => .ok (v * 1024 * 1024 % 2 ^ 64)
        | none => .error .badChunkSize
      else .ok DEFAULT_CHUNK_SIZE
    match chunkSizeR with
    | .error e => .error e
    | .ok cs =>
      let lineEndingR : Except ConfigError (List Nat) :=
        if 5 ≤ args.length then parseLineEndingArg (args.getD 4 [])
        else .ok [10]
      match lineEndingR with
      | .error e => .error e
      | .ok le =>
        let encodingR : Except ConfigError EncodingName :=
          if 6 ≤ args.length then parseEncodingArg (args.getD 5 [])
          else .ok .utf8
        match encodingR with
        | .error e => .error e
        | .ok en => .ok ⟨args.getD 1 [], args.getD 2 [], cs, le, en⟩

/-- How main starts (main.rs lines 136-142): a from_args error is printed to
stderr and main returns Ok(()) immediately, a successful process exit with
no file opened, created or written; otherwise processing proceeds with the
parsed configuration. -/
inductive MainStart where
  | configErrorCleanExit (e : ConfigError)
  | proceed (cfg : Config)
deriving DecidableEq

/-- The config dispatch at the top of main. -/
def mainDispatch (args : List (List Char)) : MainStart :=
  match fromArgs args with
  | .error e => .configErrorCleanExit e
  | .ok cfg => .proceed cfg

/-- The bytes a loop iteration writes out (empty when nothing is emitted). -/
def emContent : Option (Nat × List Nat) → List Nat
  | some e => e.2
  | none => []

/-- Value of a little-endian digit list. -/
def digitsVal (l : List Nat) : Nat := l.foldr (fun d acc => d + 10 * acc) 0

/-- Numeric value of a most-significant-first digit string. -/
def unpad3 (cs : List Char) : Nat := cs.foldl (fun a c => a * 10 + (c.toNat - 48)) 0

/-- The round-trip property claimed in C1 at one input and configuration:
the run completes and the emitted chunks concatenate, in index order, to the
original input. -/
def RoundTripAt (enc : EncodingM) (chunkSize : Nat) (lineEnding input : List Nat) : Prop :=
  ∃ chunks, runChunker enc chunkSize lineEnding input = some chunks ∧
    (chunks.map Prod.snd).flatten = input

/-- Line integrity as claimed in C2 at one input and configuration: every
chunk a completed run emits, except possibly the last, decodes to text
ending with the configured line ending. -/
def LineIntegrityAt (enc : EncodingM) (chunkSize : Nat) (lineEnding input : List Nat) :
    Prop :=
  ∀ chunks, runChunker enc chunkSize lineEnding input = some chunks →
    ∀ c ∈ chunks.dropLast, lineEnding.isSuffixOf (enc.decode c.2).1 = true

/-- m is a line boundary of the byte sequence bs: its first m bytes decode to
text that ends with the line ending. -/
def BoundaryAt (enc : EncodingM) (lineEnding bs : List Nat) (m : Nat) : Prop :=
  m ≤ bs.length ∧ lineEnding.isSuffixOf (enc.decode (bs.take m)).1 = true

instance (enc : EncodingM) (lineEnding bs : List Nat) (m : Nat) :
    Decidable (BoundaryAt enc lineEnding bs m) := by
  unfold BoundaryAt
  infer_instance

/-- The chunk contains a line longer than the threshold: two positions a < b
in the chunk more than chunkSize bytes apart, with a line boundary (or the
chunk start) at a and no line boundary strictly between them. -/
def HasOverlongLine (enc : EncodingM) (chunkSize : Nat) (lineEnding bs : List Nat) : Prop :=
  ∃ b ∈ List.range (bs.length + 1), ∃ a ∈ List.range b,
    chunkSize < b - a ∧ (a = 0 ∨ BoundaryAt enc lineEnding bs a) ∧
    ∀ m ∈ List.range b, a < m → ¬ BoundaryAt enc lineEnding bs m

instance (enc : EncodingM) (chunkSize : Nat) (lineEnding bs : List Nat) :
    Decidable (HasOverlongLine enc chunkSize lineEnding bs) := by
  unfold HasOverlongLine
  infer_instance

/-- Threshold respect as claimed in C4 at one input and configuration: every
non-final chunk either was extended by a line longer than the threshold, or
ends at a line boundary and is the minimal prefix of size at least the
threshold that does so. -/
def ThresholdRespectAt (enc : EncodingM) (chunkSize : Nat) (lineEnding input : List Nat) :
    Prop :=
  ∀ chunks, runChunker enc chunkSize lineEnding input = some chunks →
    ∀ c ∈ chunks.dropLast,
      HasOverlongLine enc chunkSize lineEnding c.2 ∨
      (chunkSize ≤ c.2.length ∧ BoundaryAt enc lineEnding c.2 c.2.length ∧
        ∀ m ∈ List.range c.2.length, chunkSize ≤ m → ¬ BoundaryAt enc lineEnding c.2 m)

instance {α β : Type} [DecidableEq α] [DecidableEq β] : DecidableEq (Except α β) := fun a b =>
  match a, b with
  | .error x, .error y =>
    if h : x = y then isTrue (by rw [h]) else isFalse (by intro hc; cases hc; exact h rfl)
  | .error _, .ok _ => isFalse (by intro hc; cases hc)
  | .ok _, .error _ => isFalse (by intro hc; cases hc)
  | .ok x, .ok y =>
    if h : x = y then isTrue (by rw [h]) else isFalse (by intro hc; cases hc; exact h rfl)

theorem chunkLoop_nil (enc : EncodingM) (chunkSize : Nat) (lineEnding currentChunk : List Nat)
    (lastNewlinePos chunkNumber : Nat) (emitted : List (Nat × List Nat)) :
    chunkLoop enc chunkSize lineEnding [] currentChunk lastNewlinePos chunkNumber emitted =
      if currentChunk = [] then some emitted.reverse
      else some (((chunkNumber, currentChunk) :: emitted).reverse) := by
  rw [chunkLoop]
  simp

theorem chunkLoop_cons (enc : EncodingM) (chunkSize : Nat)
    (lineEnding remaining currentChunk : List Nat) (lastNewlinePos chunkNumber : Nat)
    (emitted : List (Nat × List Nat)) (h : remaining ≠ []) :
    chunkLoop enc chunkSize lineEnding remaining currentChunk lastNewlinePos chunkNumber
        emitted =
      match chunkStep enc chunkSize lineEnding currentChunk lastNewlinePos chunkNumber
          (remaining.take BUFFER_SIZE) with
      | none => none
      | some ((chunk3, lnp2, num2), em) =>
        chunkLoop enc chunkSize lineEnding (remaining.drop BUFFER_SIZE) chunk3 lnp2 num2
          (match em with
           | some e => e :: emitted
           | none => emitted) := by
  rw [chunkLoop]
  have h0 : 0 < (remaining.take BUFFER_SIZE).length := by
    have := List.length_pos.mpr h
    simp only [List.length_take, BUFFER_SIZE]
    omega
  have h1 : ¬ ((remaining.take BUFFER_SIZE).length = 0 ∧ currentChunk = []) := by
    intro hc
    exact absurd hc.1 (by omega)
  rw [if_neg h1, if_pos h0]

/-- A run whose input fits in a single read: one pass of the loop body over
the whole input, then the final-flush iteration. -/
theorem runChunker_eval (enc : EncodingM) (chunkSize : Nat) (lineEnding input : List Nat)
    (h : input ≠ []) (hlen : input.length ≤ BUFFER_SIZE) :
    runChunker enc chunkSize lineEnding input =
      match chunkStep enc chunkSize lineEnding [] 0 1 input with
      | none => none
      | some ((chunk3, _, num2), em) =>
        if chunk3 = [] then
          some ((match em with
                 | some e => [e]
                 | none => ([] : List (Nat × List Nat))).reverse)
        else
          some (((num2, chunk3) :: (match em with
                 | some e => [e]
                 | none => ([] : List (Nat × List Nat)))).reverse) := by
  rw [runChunker, chunkLoop_cons _ _ _ _ _ _ _ _ h]
  rw [List.take_of_length_le hlen, List.drop_eq_nil_of_le hlen]
  cases hstep : chunkStep enc chunkSize lineEnding [] 0 1 input with
  | none => rfl
  | some v =>
    obtain ⟨⟨c3, l2, n2⟩, em⟩ := v
    cases em <;> simp [chunkLoop_nil]

theorem rfindFrom_eq_some (t pat : List Nat) :
    ∀ k i, rfindFrom t pat k = some i →
      i ≤ k ∧ pat.isPrefixOf (t.drop i) = true ∧
        ∀ j, i < j → j ≤ k → pat.isPrefixOf (t.drop j) = false := by
  intro k
  induction k with
  | zero =>
    intro i h
    rw [rfindFrom] at h
    by_cases hp : pat.isPrefixOf t = true
    · simp only [hp, if_pos] at h
      cases h
      exact ⟨Nat.le_refl 0, by simpa using hp, fun j hj hj0 => absurd (Nat.lt_of_lt_of_le hj hj0) (Nat.lt_irrefl 0)⟩
    · simp only [Bool.not_eq_true] at hp
      rw [if_neg (by simp [hp])] at h
      cases h
  | succ k ih =>
    intro i h
    rw [rfindFrom] at h
    by_cases hp : pat.isPrefixOf (t.drop (k + 1)) = true
    · rw [if_pos hp] at h
      cases h
      refine ⟨Nat.le_refl _, hp, fun j hj hj1 => absurd (Nat.lt_of_lt_of_le hj hj1) (Nat.lt_irrefl _)⟩
    · simp only [Bool.not_eq_true] at hp
      rw [if_neg (by simp [hp])] at h
      obtain ⟨hik, hpre, hmax⟩ := ih i h
      refine ⟨Nat.le_succ_of_le hik, hpre, fun j hj hj1 => ?_⟩
      rcases Nat.lt_or_ge j (k + 1) with hlt | hge
      · exact hmax j hj (Nat.lt_succ_iff.mp hlt)
      · have : j = k + 1 := Nat.le_antisymm hj1 hge
        rw [this]
        exact hp

theorem rfindFrom_eq_none (t pat : List Nat) :
    ∀ k, rfindFrom t pat k = none → ∀ j, j ≤ k → pat.isPrefixOf (t.drop j) = false := by
  intro k
  induction k with
  | zero =>
    intro h j hj
    rw [rfindFrom] at h
    by_cases hp : pat.isPrefixOf t = true
    · rw [if_pos hp] at h; cases h
    · interval_cases j
      simpa using Bool.not_eq_true _ |>.mp hp
  | succ k ih =>
    intro h j hj
    rw [rfindFrom] at h
    by_cases hp : pat.isPrefixOf (t.drop (k + 1)) = true
    · rw [if_pos hp] at h; cases h
    · simp only [Bool.not_eq_true] at hp
      rw [if_neg (by simp [hp])] at h
      rcases Nat.lt_or_ge j (k + 1) with hlt | hge
      · exact ih h j (Nat.lt_succ_iff.mp hlt)
      · have : j = k + 1 := Nat.le_antisymm hj hge
        rw [this]
        exact hp

theorem rfindFrom_intro (t pat : List Nat) :
    ∀ k i, i ≤ k → pat.isPrefixOf (t.drop i) = true →
      (∀ j, i < j → j ≤ k → pat.isPrefixOf (t.drop j) = false) →
      rfindFrom t pat k = some i := by
  intro k
  induction k with
  | zero =>
    intro i hik hpre _
    interval_cases i
    rw [rfindFrom]
    simp only [List.drop_zero] at hpre
    rw [if_pos hpre]
  | succ k ih =>
    intro i hik hpre hmax
    rw [rfindFrom]
    rcases Nat.lt_or_ge i (k + 1) with hlt | hge
    · have hf : pat.isPrefixOf (t.drop (k + 1)) = false := hmax (k + 1) hlt (Nat.le_refl _)
      rw [if_neg (by simp [hf])]
      exact ih i (Nat.lt_succ_iff.mp hlt) hpre fun j hj hjk => hmax j hj (Nat.le_succ_of_le hjk)
    · have : i = k + 1 := Nat.le_antisymm hik hge
      subst this
      rw [if_pos hpre]

theorem utf8DecodeFrom_cons (st : Utf8State) (b : Nat) (rest : List Nat) :
    utf8DecodeFrom st (b :: rest) =
      ((u8Step st b).1 ++ (utf8DecodeFrom (u8Step st b).2.2 rest).1,
        (u8Step st b).2.1 || (utf8DecodeFrom (u8Step st b).2.2 rest).2) := rfl

theorem u8Step_ground (b : Nat) : u8Step u8Ground b = u8Lead b := by
  rw [u8Step, if_pos (show u8Ground.needed = 0 from rfl)]

theorem u8Step_mk_cont (needed acc lo hi b : Nat) (hn : ¬ (needed = 0))
    (h1 : lo ≤ b) (h2 : b ≤ hi) :
    u8Step ⟨needed, acc, lo, hi⟩ b =
      if needed = 1 then ([acc * 0x40 + (b - 0x80)], false, u8Ground)
      else ([], false, ⟨needed - 1, acc * 0x40 + (b - 0x80), 0x80, 0xBF⟩) := by
  rw [u8Step]
  exact if_neg hn |>.trans (if_pos ⟨h1, h2⟩)

theorem u8Step_mk_cont3 (acc lo hi b : Nat) (h1 : lo ≤ b) (h2 : b ≤ hi) :
    u8Step ⟨3, acc, lo, hi⟩ b = ([], false, ⟨2, acc * 0x40 + (b - 0x80), 0x80, 0xBF⟩) := by
  have h := u8Step_mk_cont 3 acc lo hi b (by omega) h1 h2
  rw [if_neg (by omega)] at h
  simpa using h

theorem u8Step_mk_cont2 (acc lo hi b : Nat) (h1 : lo ≤ b) (h2 : b ≤ hi) :
    u8Step ⟨2, acc, lo, hi⟩ b = ([], false, ⟨1, acc * 0x40 + (b - 0x80), 0x80, 0xBF⟩) := by
  have h := u8Step_mk_cont 2 acc lo hi b (by omega) h1 h2
  rw [if_neg (by omega)] at h
  simpa using h

theorem u8Step_mk_last (acc lo hi b : Nat) (h1 : lo ≤ b) (h2 : b ≤ hi) :
    u8Step ⟨1, acc, lo, hi⟩ b = ([acc * 0x40 + (b - 0x80)], false, u8Ground) := by
  have h := u8Step_mk_cont 1 acc lo hi b (by omega) h1 h2
  rw [if_pos rfl] at h
  exact h

theorem utf8DecodeFrom_ground_encodeChar (p : Nat) (hp : ScalarValue p) (rest : List Nat) :
    utf8DecodeFrom u8Ground (utf8EncodeChar p ++ rest) =
      (p :: (utf8DecodeFrom u8Ground rest).1, (utf8DecodeFrom u8Ground rest).2) := by
  obtain ⟨hlt, hsurr⟩ := hp
  rw [utf8EncodeChar]
  by_cases h1 : p < 0x80
  · rw [if_pos h1]
    simp [utf8DecodeFrom, u8Step, u8Ground, u8Lead, h1]
  · rw [if_neg h1]
    by_cases h2 : p < 0x800
    · rw [if_pos h2]
      have ha : ¬ (0xC0 + p / 0x40 < 0x80) := by omega
      have hb : ¬ (0xC0 + p / 0x40 < 0xC2) := by omega
      have hc : 0xC0 + p / 0x40 ≤ 0xDF := by omega
      have hd : 0x80 ≤ 0x80 + p % 0x40 := by omega
      have he : 0x80 + p % 0x40 ≤ 0xBF := by omega
      simp [utf8DecodeFrom, u8Step, u8Ground, u8Lead, ha, hb, hc, hd, he]
      omega
    · rw [if_neg h2]
      by_cases h3 : p < 0x10000
      · rw [if_pos h3]
        have hlead : u8Step u8Ground (0xE0 + p / 0x1000) =
            ([], false, ⟨2, 0xE0 + p / 0x1000 - 0xE0,
              if 0xE0 + p / 0x1000 = 0xE0 then 0xA0 else 0x80,
              if 0xE0 + p / 0x1000 = 0xED then 0x9F else 0xBF⟩) := by
          rw [u8Step_ground, u8Lead, if_neg (by omega), if_neg (by omega),
            if_neg (by omega), if_pos (by omega)]
        have hlo : (if 0xE0 + p / 0x1000 = 0xE0 then 0xA0 else 0x80) ≤
            0x80 + p / 0x40 % 0x40 := by
          by_cases h : 0xE0 + p / 0x1000 = 0xE0
          · rw [if_pos h]; omega
          · rw [if_neg h]; omega
        have hhi : 0x80 + p / 0x40 % 0x40 ≤
            (if 0xE0 + p / 0x1000 = 0xED then 0x9F else 0xBF) := by
          by_cases h : 0xE0 + p / 0x1000 = 0xED
          · rw [if_pos h]; omega
          · rw [if_neg h]; omega
        have h3a : (0x80 : Nat) ≤ 0x80 + p % 0x40 := by omega
        have h3b : 0x80 + p % 0x40 ≤ (0xBF : Nat) := by omega
        show utf8DecodeFrom u8Ground
            ((0xE0 + p / 0x1000) :: (0x80 + p / 0x40 % 0x40) :: (0x80 + p % 0x40) :: rest) = _
        rw [utf8DecodeFrom_cons, hlead]
        rw [utf8DecodeFrom_cons, u8Step_mk_cont2 _ _ _ _ hlo hhi]
        rw [utf8DecodeFrom_cons, u8Step_mk_last _ _ _ _ h3a h3b]
        simp only [List.nil_append, List.cons_append, Bool.false_or, Prod.mk.injEq,
          List.cons.injEq, and_true]
        omega
      · rw [if_neg h3]
        have hlead : u8Step u8Ground (0xF0 + p / 0x40000) =
            ([], false, ⟨3, 0xF0 + p / 0x40000 - 0xF0,
              if 0xF0 + p / 0x40000 = 0xF0 then 0x90 else 0x80,
              if 0xF0 + p / 0x40000 = 0xF4 then 0x8F else 0xBF⟩) := by
          rw [u8Step_ground, u8Lead, if_neg (by omega), if_neg (by omega),
            if_neg (by omega), if_neg (by omega), if_pos (by omega)]
        have hlo : (if 0xF0 + p / 0x40000 = 0xF0 then 0x90 else 0x80) ≤
            0x80 + p / 0x1000 % 0x40 := by
          by_cases h : 0xF0 + p / 0x40000 = 0xF0
          · rw [if_pos h]; omega
          · rw [if_neg h]; omega
        have hhi : 0x80 + p / 0x1000 % 0x40 ≤
            (if 0xF0 + p / 0x40000 = 0xF4 then 0x8F else 0xBF) := by
          by_cases h : 0xF0 + p / 0x40000 = 0xF4
          · rw [if_pos h]; omega
          · rw [if_neg h]; omega
        have h3a : (0x80 : Nat) ≤ 0x80 + p / 0x40 % 0x40 := by omega
        have h3b : 0x80 + p / 0x40 % 0x40 ≤ (0xBF : Nat) := by omega
        have h4a : (0x80 : Nat) ≤ 0x80 + p % 0x40 := by omega
        have h4b : 0x80 + p % 0x40 ≤ (0xBF : Nat) := by omega
        show utf8DecodeFrom u8Ground
            ((0xF0 + p / 0x40000) :: (0x80 + p / 0x1000 % 0x40) :: (0x80 + p / 0x40 % 0x40) ::
              (0x80 + p % 0x40) :: rest) = _
        rw [utf8DecodeFrom_cons, hlead]
        rw [utf8DecodeFrom_cons, u8Step_mk_cont3 _ _ _ _ hlo hhi]
        rw [utf8DecodeFrom_cons, u8Step_mk_cont2 _ _ _ _ h3a h3b]
        rw [utf8DecodeFrom_cons, u8Step_mk_last _ _ _ _ h4a h4b]
        simp only [List.nil_append, List.cons_append, Bool.false_or, Prod.mk.injEq,
          List.cons.injEq, and_true]
        omega

theorem utf8Encode_cons (p : Nat) (tail : List Nat) :
    utf8Encode (p :: tail) = utf8EncodeChar p ++ utf8Encode tail := by
  simp [utf8Encode]

theorem utf8Encode_append (a b : List Nat) :
    utf8Encode (a ++ b) = utf8Encode a ++ utf8Encode b := by
  simp [utf8Encode]

theorem utf8DecodeGo_encode (s : List Nat) (hs : ∀ p ∈ s, ScalarValue p) :
    utf8DecodeGo (utf8Encode s) = (s, false) := by
  induction s with
  | nil => rfl
  | cons p tail ih =>
    have hp : ScalarValue p := hs p (by simp)
    have htail : ∀ q ∈ tail, ScalarValue q := fun q hq => hs q (by simp [hq])
    rw [utf8DecodeGo, utf8Encode_cons, utf8DecodeFrom_ground_encodeChar p hp]
    have : utf8DecodeFrom u8Ground (utf8Encode tail) = (tail, false) := ih htail
    rw [this]

theorem isPrefixOf_eq_true_iff (pat l : List Nat) :
    pat.isPrefixOf l = true ↔ ∃ u, l = pat ++ u := by
  induction pat generalizing l with
  | nil =>
    simp [List.isPrefixOf]
  | cons a as ih =>
    cases l with
    | nil =>
      constructor
      · intro h; cases h
      · rintro ⟨u, hu⟩; cases hu
    | cons b bs =>
      show ((a == b) && as.isPrefixOf bs) = true ↔ _
      simp only [Bool.and_eq_true, beq_iff_eq, ih]
      constructor
      · rintro ⟨rfl, u, rfl⟩
        exact ⟨u, rfl⟩
      · rintro ⟨u, hu⟩
        injection hu with h1 h2
        exact ⟨h1.symm, u, h2⟩

theorem isPrefixOf_append_self (x y : List Nat) : x.isPrefixOf (x ++ y) = true :=
  (isPrefixOf_eq_true_iff x (x ++ y)).mpr ⟨y, rfl⟩

theorem isSuffixOf_append_self (x y : List Nat) : y.isSuffixOf (x ++ y) = true := by
  show (y.reverse.isPrefixOf (x ++ y).reverse) = true
  rw [List.reverse_append]
  exact isPrefixOf_append_self _ _

theorem utf8M_decode_encode (s : List Nat) (hs : ∀ p ∈ s, ScalarValue p)
    (hh : s.head? ≠ some 0xFEFF) : utf8M.decode (utf8Encode s) = (s, false) := by
  have hbase : utf8DecodeGo (utf8Encode s) = (s, false) := utf8DecodeGo_encode s hs
  cases s with
  | nil =>
    rfl
  | cons p t =>
    obtain ⟨hlt, hsurr⟩ := hs p (by simp)
    have hEF : [0xEF, 0xBB, 0xBF].isPrefixOf (utf8Encode (p :: t)) = false := by
      by_contra hc
      rw [Bool.not_eq_false] at hc
      obtain ⟨u, hu⟩ := (isPrefixOf_eq_true_iff _ _).mp hc
      rw [utf8Encode_cons, utf8EncodeChar] at hu
      by_cases h1 : p < 0x80
      · rw [if_pos h1] at hu
        simp only [List.cons_append, List.nil_append] at hu
        injection hu with e1 _
        omega
      · rw [if_neg h1] at hu
        by_cases h2 : p < 0x800
        · rw [if_pos h2] at hu
          simp only [List.cons_append, List.nil_append] at hu
          injection hu with e1 _
          omega
        · rw [if_neg h2] at hu
          by_cases h3 : p < 0x10000
          · rw [if_pos h3] at hu
            simp only [List.cons_append, List.nil_append] at hu
            injection hu with e1 hu2
            injection hu2 with e2 hu3
            injection hu3 with e3 _
            have hp : p = 0xFEFF := by omega
            exact hh (by simp [hp])
          · rw [if_neg h3] at hu
            simp only [List.cons_append, List.nil_append] at hu
            injection hu with e1 _
            omega
    have hFF : [0xFF, 0xFE].isPrefixOf (utf8Encode (p :: t)) = false := by
      by_contra hc
      rw [Bool.not_eq_false] at hc
      obtain ⟨u, hu⟩ := (isPrefixOf_eq_true_iff _ _).mp hc
      rw [utf8Encode_cons, utf8EncodeChar] at hu
      by_cases h1 : p < 0x80
      · rw [if_pos h1] at hu
        simp only [List.cons_append, List.nil_append] at hu
        injection hu with e1 _
        omega
      · rw [if_neg h1] at hu
        by_cases h2 : p < 0x800
        · rw [if_pos h2] at hu
          simp only [List.cons_append, List.nil_append] at hu
          injection hu with e1 _
          omega
        · rw [if_neg h2] at hu
          by_cases h3 : p < 0x10000
          · rw [if_pos h3] at hu
            simp only [List.cons_append, List.nil_append] at hu
            injection hu with e1 _
            omega
          · rw [if_neg h3] at hu
            simp only [List.cons_append, List.nil_append] at hu
            injection hu with e1 _
            omega
    have hFE : [0xFE, 0xFF].isPrefixOf (utf8Encode (p :: t)) = false := by
      by_contra hc
      rw [Bool.not_eq_false] at hc
      obtain ⟨u, hu⟩ := (isPrefixOf_eq_true_iff _ _).mp hc
      rw [utf8Encode_cons, utf8EncodeChar] at hu
      by_cases h1 : p < 0x80
      · rw [if_pos h1] at hu
        simp only [List.cons_append, List.nil_append] at hu
        injection hu with e1 _
        omega
      · rw [if_neg h1] at hu
        by_cases h2 : p < 0x800
        · rw [if_pos h2] at hu
          simp only [List.cons_append, List.nil_append] at hu
          injection hu with e1 _
          omega
        · rw [if_neg h2] at hu
          by_cases h3 : p < 0x10000
          · rw [if_pos h3] at hu
            simp only [List.cons_append, List.nil_append] at hu
            injection hu with e1 _
            omega
          · rw [if_neg h3] at hu
            simp only [List.cons_append, List.nil_append] at hu
            injection hu with e1 _
            omega
    show (if [0xEF, 0xBB, 0xBF].isPrefixOf (utf8Encode (p :: t)) = true then _
      else if [0xFF, 0xFE].isPrefixOf (utf8Encode (p :: t)) = true then _
      else if [0xFE, 0xFF].isPrefixOf (utf8Encode (p :: t)) = true then _
      else utf8DecodeGo (utf8Encode (p :: t))) = _
    rw [if_neg (by simp [hEF]), if_neg (by simp [hFF]), if_neg (by simp [hFE])]
    exact hbase

theorem utf8Encode_take_append (s : List Nat) (i : Nat) :
    utf8Encode s = utf8Encode (s.take i) ++ utf8Encode (s.drop i) := by
  rw [← utf8Encode_append, List.take_append_drop]

theorem utf8Encode_take_bytes (s : List Nat) (i : Nat) :
    (utf8Encode s).take (utf8Encode (s.take i)).length = utf8Encode (s.take i) := by
  conv => lhs; rw [utf8Encode_take_append s i]
  exact List.take_left _ _

theorem utf8Encode_drop_bytes (s : List Nat) (i : Nat) :
    (utf8Encode s).drop (utf8Encode (s.take i)).length = utf8Encode (s.drop i) := by
  conv => lhs; rw [utf8Encode_take_append s i]
  exact List.drop_left _ _

theorem utf8EncodeChar_ne_nil (p : Nat) : utf8EncodeChar p ≠ [] := by
  rw [utf8EncodeChar]
  split
  · simp
  · split
    · simp
    · split <;> simp

theorem utf8Encode_ne_nil (s : List Nat) (h : s ≠ []) : utf8Encode s ≠ [] := by
  cases s with
  | nil => exact absurd rfl h
  | cons p t =>
    rw [utf8Encode_cons]
    intro hc
    exact utf8EncodeChar_ne_nil p (List.append_eq_nil.mp hc).1

theorem rfind_eq_some (t pat : List Nat) (i : Nat) (h : rfind t pat = some i) :
    i ≤ t.length ∧ pat.isPrefixOf (t.drop i) = true ∧
      ∀ j, i < j → j ≤ t.length → pat.isPrefixOf (t.drop j) = false :=
  rfindFrom_eq_some t pat t.length i h

theorem rfind_eq_none (t pat : List Nat) (h : rfind t pat = none) :
    ∀ j, j ≤ t.length → pat.isPrefixOf (t.drop j) = false :=
  rfindFrom_eq_none t pat t.length h

theorem rfind_intro (t pat : List Nat) (i : Nat) (hi : i ≤ t.length)
    (hpre : pat.isPrefixOf (t.drop i) = true)
    (hmax : ∀ j, i < j → j ≤ t.length → pat.isPrefixOf (t.drop j) = false) :
    rfind t pat = some i :=
  rfindFrom_intro t pat t.length i hi hpre hmax

theorem match_take (s pat : List Nat) (i : Nat) (h : pat.isPrefixOf (s.drop i) = true)
    (hi : i ≤ s.length) : s.take (i + pat.length) = s.take i ++ pat := by
  obtain ⟨u, hu⟩ := (isPrefixOf_eq_true_iff _ _).mp h
  have hdecomp : s = (s.take i ++ pat) ++ u := by
    conv_lhs => rw [← List.take_append_drop i s, hu]
    rw [List.append_assoc]
  have hlen : (s.take i ++ pat).length = i + pat.length := by
    simp [List.length_take, Nat.min_eq_left hi]
  conv_lhs => rw [hdecomp, ← hlen]
  exact List.take_left _ _

theorem match_le_length (s pat : List Nat) (i : Nat) (h : pat.isPrefixOf (s.drop i) = true)
    (hi : i ≤ s.length) : i + pat.length ≤ s.length := by
  obtain ⟨u, hu⟩ := (isPrefixOf_eq_true_iff _ _).mp h
  have := congrArg List.length hu
  simp [List.length_drop] at this
  omega

theorem utf8Encode_take_len_le (s : List Nat) (m : Nat) :
    (utf8Encode (s.take m)).length ≤ (utf8Encode s).length := by
  conv_rhs => rw [utf8Encode_take_append s m]
  simp

/-- find_last_line_ending on a cleanly decoding span: no occurrence of the
line ending in the decoded text gives none. -/
theorem find_valid_none (s le : List Nat) (hs : ∀ p ∈ s, ScalarValue p)
    (hh : s.head? ≠ some 0xFEFF) (hle : rfind s le = none) :
    find_last_line_ending (utf8Encode s) le utf8M = none := by
  by_cases hnil : utf8Encode s = []
  · rw [find_last_line_ending, if_pos hnil]
  · rw [find_last_line_ending, if_neg hnil]
    have hdec : utf8M.decode (utf8Encode s) = (s, false) := utf8M_decode_encode s hs hh
    simp only [hdec, hle]

/-- find_last_line_ending on a cleanly decoding non-empty span: the rightmost
occurrence at character index i is reported as the byte length of the encoded
text before it. -/
theorem find_valid_some (s le : List Nat) (hs : ∀ p ∈ s, ScalarValue p)
    (hh : s.head? ≠ some 0xFEFF) (hne : s ≠ []) (i : Nat) (hle : rfind s le = some i) :
    find_last_line_ending (utf8Encode s) le utf8M =
      some ((utf8Encode (s.take i)).length) := by
  rw [find_last_line_ending, if_neg (utf8Encode_ne_nil s hne)]
  have hdec : utf8M.decode (utf8Encode s) = (s, false) := utf8M_decode_encode s hs hh
  simp only [hdec, hle]
  rfl

theorem splitDecision_content (enc : EncodingM) (chunkSize : Nat) (le : List Nat)
    (lnp num : Nat) (chunk1 c2 : List Nat) (l2 n2 : Nat) (em : Option (Nat × List Nat))
    (h : splitDecision enc chunkSize le lnp num chunk1 = some (c2, l2, n2, em)) :
    emContent em ++ c2 = chunk1 ∧
      n2 = (if em.isSome then num + 1 else num) ∧
      (∀ k c, em = some (k, c) → k = num) := by
  rw [splitDecision] at h
  split at h
  case isTrue hsz =>
    split at h
    case isFalse => cases h
    case isTrue hlnp =>
      split at h
      case h_1 lastPos heq =>
        dsimp only at h
        split at h
        case isTrue hsp =>
          injection h with h'
          injection h' with e1 h'
          injection h' with e2 h'
          injection h' with e3 e4
          subst e1; subst e2; subst e3; subst e4
          refine ⟨?_, rfl, fun k c hkc => ?_⟩
          · show (chunk1.take _ ++ chunk1.drop _) = chunk1
            exact List.take_append_drop _ _
          · injection hkc with hp
            injection hp with hk _
            exact hk.symm
        case isFalse => cases h
      case h_2 heq =>
        injection h with h'
        injection h' with e1 h'
        injection h' with e2 h'
        injection h' with e3 e4
        subst e1; subst e2; subst e3; subst e4
        exact ⟨rfl, rfl, fun k c hkc => by cases hkc⟩
  case isFalse hsz =>
    injection h with h'
    injection h' with e1 h'
    injection h' with e2 h'
    injection h' with e3 e4
    subst e1; subst e2; subst e3; subst e4
    exact ⟨rfl, rfl, fun k c hkc => by cases hkc⟩

theorem chunkStep_content (enc : EncodingM) (chunkSize : Nat)
    (le cc : List Nat) (lnp num : Nat) (buffer st3 : List Nat) (lnp2 num2 : Nat)
    (em : Option (Nat × List Nat))
    (h : chunkStep enc chunkSize le cc lnp num buffer = some ((st3, lnp2, num2), em)) :
    emContent em ++ st3 = cc ++ buffer ∧
      num2 = (if em.isSome then num + 1 else num) ∧
      (∀ k c, em = some (k, c) → k = num) := by
  rw [chunkStep] at h
  dsimp only at h
  by_cases hEnd : stepEndPos enc le buffer ≤ buffer.length
  · rw [if_pos hEnd] at h
    cases hsd : splitDecision enc chunkSize le lnp num
        (cc ++ buffer.take (stepEndPos enc le buffer)) with
    | none => rw [hsd] at h; cases h
    | some v =>
      obtain ⟨c2, l2, n2, em'⟩ := v
      rw [hsd] at h
      dsimp only at h
      obtain ⟨hc, hn, hk⟩ := splitDecision_content _ _ _ _ _ _ _ _ _ _ hsd
      by_cases hlt : stepEndPos enc le buffer < buffer.length
      · rw [if_pos hlt] at h
        injection h with hpair
        injection hpair with e1 e4
        injection e1 with f1 e2
        injection e2 with f2 f3
        subst f2
        subst f3
        subst e4
        subst f1
        refine ⟨?_, hn, hk⟩
        rw [← List.append_assoc, hc, List.append_assoc, List.take_append_drop]
      · rw [if_neg hlt] at h
        injection h with hpair
        injection hpair with e1 e4
        injection e1 with f1 e2
        injection e2 with f2 f3
        subst f2
        subst f3
        subst e4
        subst f1
        refine ⟨?_, hn, hk⟩
        have hEq : stepEndPos enc le buffer = buffer.length := by omega
        rw [hc, hEq, List.take_length]
  · rw [if_neg hEnd] at h
    cases h

theorem range1_concat (n : Nat) : List.range' 1 (n + 1) = List.range' 1 n ++ [n + 1] := by
  rw [List.range'_concat]
  simp [Nat.add_comm]

theorem chunkLoop_join_nil (enc : EncodingM) (chunkSize : Nat) (le cc : List Nat)
    (lnp num : Nat) (emitted : List (Nat × List Nat)) (out : List (Nat × List Nat))
    (h : chunkLoop enc chunkSize le [] cc lnp num emitted = some out) :
    (out.map Prod.snd).flatten = ((emitted.reverse.map Prod.snd).flatten) ++ cc := by
  rw [chunkLoop_nil] at h
  by_cases hcc : cc = []
  · rw [if_pos hcc] at h
    injection h with h'
    subst h'
    subst hcc
    simp
  · rw [if_neg hcc] at h
    injection h with h'
    subst h'
    simp

theorem chunkLoop_join (enc : EncodingM) (chunkSize : Nat) (le : List Nat) :
    ∀ (N : Nat) (remaining cc : List Nat) (lnp num : Nat)
      (emitted out : List (Nat × List Nat)),
      remaining.length ≤ N →
      chunkLoop enc chunkSize le remaining cc lnp num emitted = some out →
      (out.map Prod.snd).flatten =
        ((emitted.reverse.map Prod.snd).flatten) ++ cc ++ remaining := by
  intro N
  induction N with
  | zero =>
    intro remaining cc lnp num emitted out hlen h
    have hr : remaining = [] := List.length_eq_zero.mp (Nat.le_zero.mp hlen)
    subst hr
    simpa using chunkLoop_join_nil _ _ _ _ _ _ _ _ h
  | succ N ih =>
    intro remaining cc lnp num emitted out hlen h
    by_cases hrem : remaining = []
    · subst hrem
      simpa using chunkLoop_join_nil _ _ _ _ _ _ _ _ h
    · rw [chunkLoop_cons _ _ _ _ _ _ _ _ hrem] at h
      cases hstep : chunkStep enc chunkSize le cc lnp num (remaining.take BUFFER_SIZE) with
      | none => rw [hstep] at h; cases h
      | some v =>
        obtain ⟨⟨st3, lnp2, num2⟩, em⟩ := v
        rw [hstep] at h
        have hlen' : (remaining.drop BUFFER_SIZE).length ≤ N := by
          have h1 := List.length_pos.mpr hrem
          simp only [List.length_drop, BUFFER_SIZE]
          omega
        obtain ⟨hcontent, _, _⟩ := chunkStep_content _ _ _ _ _ _ _ _ _ _ _ hstep
        cases em with
        | none =>
          have hinv := ih (remaining.drop BUFFER_SIZE) st3 lnp2 num2 emitted out hlen' h
          simp only [emContent, List.nil_append] at hcontent
          rw [hinv, hcontent]
          conv_rhs => rw [← List.take_append_drop BUFFER_SIZE remaining]
          simp [List.append_assoc]
        | some e =>
          have hinv := ih (remaining.drop BUFFER_SIZE) st3 lnp2 num2 (e :: emitted) out hlen' h
          simp only [emContent] at hcontent
          rw [hinv]
          conv_rhs => rw [← List.take_append_drop BUFFER_SIZE remaining]
          simp only [List.reverse_cons, List.map_append, List.flatten_append,
            List.map_cons, List.map_nil, List.flatten_cons, List.flatten_nil,
            List.append_nil, List.append_assoc]
          rw [← List.append_assoc e.2 st3, hcontent]
          simp [List.append_assoc]

theorem chunkLoop_numbers (enc : EncodingM) (chunkSize : Nat) (le : List Nat) :
    ∀ (N : Nat) (remaining cc : List Nat) (lnp num : Nat)
      (emitted out : List (Nat × List Nat)),
      remaining.length ≤ N →
      emitted.reverse.map Prod.fst = List.range' 1 emitted.length →
      num = emitted.length + 1 →
      chunkLoop enc chunkSize le remaining cc lnp num emitted = some out →
      out.map Prod.fst = List.range' 1 out.length := by
  intro N
  induction N with
  | zero =>
    intro remaining cc lnp num emitted out hlen hem hnum h
    have hr : remaining = [] := List.length_eq_zero.mp (Nat.le_zero.mp hlen)
    subst hr
    rw [chunkLoop_nil] at h
    by_cases hcc : cc = []
    · rw [if_pos hcc] at h
      injection h with h'
      subst h'
      simpa using hem
    · rw [if_neg hcc] at h
      injection h with h'
      subst h'
      simp only [List.reverse_cons, List.map_append, List.map_cons, List.map_nil,
        List.length_reverse, List.length_cons, List.length_append, List.length_nil]
      rw [hem, hnum]
      rw [← range1_concat]
  | succ N ih =>
    intro remaining cc lnp num emitted out hlen hem hnum h
    by_cases hrem : remaining = []
    · subst hrem
      rw [chunkLoop_nil] at h
      by_cases hcc : cc = []
      · rw [if_pos hcc] at h
        injection h with h'
        subst h'
        simpa using hem
      · rw [if_neg hcc] at h
        injection h with h'
        subst h'
        simp only [List.reverse_cons, List.map_append, List.map_cons, List.map_nil,
          List.length_reverse, List.length_cons, List.length_append, List.length_nil]
        rw [hem, hnum]
        rw [← range1_concat]
    · rw [chunkLoop_cons _ _ _ _ _ _ _ _ hrem] at h
      cases hstep : chunkStep enc chunkSize le cc lnp num (remaining.take BUFFER_SIZE) with
      | none => rw [hstep] at h; cases h
      | some v =>
        obtain ⟨⟨st3, lnp2, num2⟩, em⟩ := v
        rw [hstep] at h
        have hlen' : (remaining.drop BUFFER_SIZE).length ≤ N := by
          have h1 := List.length_pos.mpr hrem
          simp only [List.length_drop, BUFFER_SIZE]
          omega
        obtain ⟨_, hn2, hk⟩ := chunkStep_content _ _ _ _ _ _ _ _ _ _ _ hstep
        cases em with
        | none =>
          have hnum2 : num2 = emitted.length + 1 := by
            simp only [Option.isSome_none, Bool.false_eq_true, if_false] at hn2
            omega
          exact ih _ st3 lnp2 num2 emitted out hlen' hem hnum2 h
        | some e =>
          obtain ⟨k, c⟩ := e
          have hkeq : k = num := hk k c rfl
          have hn2' : num2 = num + 1 := by simpa using hn2
          have hem' : ((k, c) :: emitted).reverse.map Prod.fst =
              List.range' 1 (((k, c) :: emitted).length) := by
            simp only [List.reverse_cons, List.map_append, List.map_cons, List.map_nil,
              List.length_cons]
            rw [hem, hkeq, hnum, ← range1_concat]
          have hnum2 : num2 = ((k, c) :: emitted).length + 1 := by
            simp only [List.length_cons]
            omega
          exact ih _ st3 lnp2 num2 ((k, c) :: emitted) out hlen' hem' hnum2 h

theorem isPrefixOf_of_take (pat l : List Nat) (k : Nat)
    (h : pat.isPrefixOf (l.take k) = true) : pat.isPrefixOf l = true := by
  obtain ⟨u, hu⟩ := (isPrefixOf_eq_true_iff _ _).mp h
  refine (isPrefixOf_eq_true_iff _ _).mpr ⟨u ++ l.drop k, ?_⟩
  conv_lhs => rw [← List.take_append_drop k l, hu]
  rw [List.append_assoc]

theorem head?_take (s : List Nat) (m : Nat) (hm : m ≠ 0) : (s.take m).head? = s.head? := by
  cases s with
  | nil => simp
  | cons a t =>
    cases m with
    | zero => exact absurd rfl hm
    | succ m => simp

/-- Characterization of a whole run whose input is valid UTF-8 (no leading
BOM) and fits in a single read: either one chunk holding the entire input is
written, or the input splits after the rightmost line-ending occurrence into
a first chunk of at least chunkSize bytes and a final chunk holding the
trailing bytes. -/
theorem singleRead_valid (s le : List Nat) (chunkSize : Nat)
    (hs : ∀ p ∈ s, ScalarValue p) (hh : s.head? ≠ some 0xFEFF) (hne : s ≠ [])
    (hlen : (utf8Encode s).length ≤ BUFFER_SIZE) :
    runChunker utf8M chunkSize le (utf8Encode s) = some [(1, utf8Encode s)] ∨
    (∃ i, rfind s le = some i ∧
      (utf8Encode (s.take (i + le.length))).length ≥ chunkSize ∧
      s.drop (i + le.length) ≠ [] ∧
      le.isSuffixOf (s.take (i + le.length)) = true ∧
      runChunker utf8M chunkSize le (utf8Encode s) =
        some [(1, utf8Encode (s.take (i + le.length))),
              (2, utf8Encode (s.drop (i + le.length)))]) := by
  have hne' : utf8Encode s ≠ [] := utf8Encode_ne_nil s hne
  rw [runChunker_eval _ _ _ _ hne' hlen]
  cases hrf : rfind s le with
  | none =>
    have hfind : find_last_line_ending (utf8Encode s) le utf8M = none :=
      find_valid_none s le hs hh hrf
    have hEndPos : stepEndPos utf8M le (utf8Encode s) = (utf8Encode s).length := by
      rw [stepEndPos, if_neg hne', hfind]
    have hstep : chunkStep utf8M chunkSize le [] 0 1 (utf8Encode s) =
        some (((utf8Encode s), 0, 1), none) := by
      rw [chunkStep]
      dsimp only
      rw [hEndPos, if_pos (le_refl _), List.nil_append, List.take_length]
      have hsd : splitDecision utf8M chunkSize le 0 1 (utf8Encode s) =
          some (utf8Encode s, 0, 1, none) := by
        rw [splitDecision]
        by_cases hsz : (utf8Encode s).length ≥ chunkSize
        · rw [if_pos hsz, if_pos (Nat.zero_le _), List.drop_zero, hfind]
        · rw [if_neg hsz]
      rw [hsd]
      dsimp only
      rw [if_neg (lt_irrefl _)]
    rw [hstep]
    dsimp only
    rw [if_neg hne']
    left
    rfl
  | some i =>
    obtain ⟨hile, hpre, hmax⟩ := rfind_eq_some s le i hrf
    have hm0 : i + le.length ≠ 0 := by
      intro h0
      have hi0 : i = 0 := by omega
      have hle0 : le = [] := by
        cases le with
        | nil => rfl
        | cons a t => simp [List.length_cons] at h0
      have hslen : 0 < s.length := List.length_pos.mpr hne
      have := hmax s.length (by omega) (le_refl _)
      rw [hle0] at this
      simp [List.isPrefixOf] at this
    have hmle : i + le.length ≤ s.length := match_le_length s le i hpre hile
    have htake : s.take (i + le.length) = s.take i ++ le := match_take s le i hpre hile
    have hB : find_last_line_ending (utf8Encode s) le utf8M =
        some ((utf8Encode (s.take i)).length) := find_valid_some s le hs hh hne i hrf
    have hE : (utf8Encode (s.take i)).length + lineEndingLen le =
        (utf8Encode (s.take (i + le.length))).length := by
      rw [htake, utf8Encode_append, lineEndingLen, List.length_append]
    have hEndPos : stepEndPos utf8M le (utf8Encode s) =
        (utf8Encode (s.take (i + le.length))).length := by
      rw [stepEndPos, if_neg hne', hB]
      exact hE
    have hEle : (utf8Encode (s.take (i + le.length))).length ≤ (utf8Encode s).length :=
      utf8Encode_take_len_le s _
    have hchunk1 : (utf8Encode s).take ((utf8Encode (s.take (i + le.length))).length) =
        utf8Encode (s.take (i + le.length)) := utf8Encode_take_bytes s _
    have hdropBytes : (utf8Encode s).drop ((utf8Encode (s.take (i + le.length))).length) =
        utf8Encode (s.drop (i + le.length)) := utf8Encode_drop_bytes s _
    have htm_len : (s.take (i + le.length)).length = i + le.length := by
      rw [List.length_take]
      omega
    have hpre' : le.isPrefixOf ((s.take (i + le.length)).drop i) = true := by
      have hde : (s.take (i + le.length)).drop i = le := by
        rw [htake]
        have hlen_ti : (s.take i).length = i := by
          rw [List.length_take]
          omega
        exact List.drop_left' hlen_ti
      rw [hde]
      exact (isPrefixOf_eq_true_iff le le).mpr ⟨[], (List.append_nil le).symm⟩
    have hmax' : ∀ j, i < j → j ≤ (s.take (i + le.length)).length →
        le.isPrefixOf ((s.take (i + le.length)).drop j) = false := by
      intro j hij hjm
      rw [htm_len] at hjm
      rw [List.drop_take]
      by_contra hc
      rw [Bool.not_eq_false] at hc
      have hcc := isPrefixOf_of_take le (s.drop j) _ hc
      rw [hmax j hij (by omega)] at hcc
      cases hcc
    have hrf' : rfind (s.take (i + le.length)) le = some i := by
      apply rfind_intro
      · rw [htm_len]
        omega
      · exact hpre'
      · exact hmax'
    have htt : (s.take (i + le.length)).take i = s.take i := by
      rw [List.take_take, Nat.min_eq_left (by omega)]
    have hs' : ∀ p ∈ s.take (i + le.length), ScalarValue p := fun p hp =>
      hs p (List.mem_of_mem_take hp)
    have hh' : (s.take (i + le.length)).head? ≠ some 0xFEFF := by
      rw [head?_take s _ hm0]
      exact hh
    have hne2 : s.take (i + le.length) ≠ [] := by
      intro hc
      have hlc := congrArg List.length hc
      rw [htm_len] at hlc
      exact hm0 (by simpa using hlc)
    have hfind1 : find_last_line_ending (utf8Encode (s.take (i + le.length))) le utf8M =
        some ((utf8Encode (s.take i)).length) := by
      have hf := find_valid_some (s.take (i + le.length)) le hs' hh' hne2 i hrf'
      rw [htt] at hf
      exact hf
    have hsuf : le.isSuffixOf (s.take (i + le.length)) = true := by
      rw [htake]
      exact isSuffixOf_append_self _ _
    by_cases hdrop : s.drop (i + le.length) = []
    · -- the match ends exactly at the end of the input
      have hlenm : s.length ≤ i + le.length := by
        have hld := congrArg List.length hdrop
        simp [List.length_drop] at hld
        omega
      have htakeAll : s.take (i + le.length) = s := List.take_of_length_le hlenm
      rw [htakeAll] at hEndPos hchunk1 hfind1
      by_cases hsz : (utf8Encode s).length ≥ chunkSize
      · have hsd : splitDecision utf8M chunkSize le 0 1 (utf8Encode s) =
            some ([], 0, 2, some (1, utf8Encode s)) := by
          rw [splitDecision, if_pos hsz, if_pos (Nat.zero_le _), List.drop_zero, hfind1]
          dsimp only
          have hsplit : 0 + (utf8Encode (s.take i)).length + lineEndingLen le =
              (utf8Encode s).length := by
            rw [Nat.zero_add, hE, htakeAll]
          rw [hsplit, if_pos (le_refl _), List.drop_length, List.take_length]
        have hstep : chunkStep utf8M chunkSize le [] 0 1 (utf8Encode s) =
            some (([], 0, 2), some (1, utf8Encode s)) := by
          rw [chunkStep]
          dsimp only
          rw [hEndPos, if_pos (le_refl _), List.nil_append, List.take_length, hsd]
          dsimp only
          rw [if_neg (lt_irrefl _)]
        rw [hstep]
        dsimp only
        rw [if_pos rfl]
        left
        rfl
      · have hsd : splitDecision utf8M chunkSize le 0 1 (utf8Encode s) =
            some (utf8Encode s, 0, 1, none) := by
          rw [splitDecision, if_neg hsz]
        have hstep : chunkStep utf8M chunkSize le [] 0 1 (utf8Encode s) =
            some (((utf8Encode s), 0, 1), none) := by
          rw [chunkStep]
          dsimp only
          rw [hEndPos, if_pos (le_refl _), List.nil_append, List.take_length, hsd]
          dsimp only
          rw [if_neg (lt_irrefl _)]
        rw [hstep]
        dsimp only
        rw [if_neg hne']
        left
        rfl
    · have hencdrop : utf8Encode (s.drop (i + le.length)) ≠ [] :=
        utf8Encode_ne_nil _ hdrop
      have hlt : (utf8Encode (s.take (i + le.length))).length < (utf8Encode s).length := by
        have hsplit := utf8Encode_take_append s (i + le.length)
        have hlensum := congrArg List.length hsplit
        rw [List.length_append] at hlensum
        have hpos : 0 < (utf8Encode (s.drop (i + le.length))).length :=
          List.length_pos.mpr hencdrop
        omega
      by_cases hsz : (utf8Encode (s.take (i + le.length))).length ≥ chunkSize
      · have hsd : splitDecision utf8M chunkSize le 0 1
            (utf8Encode (s.take (i + le.length))) =
            some ([], 0, 2, some (1, utf8Encode (s.take (i + le.length)))) := by
          rw [splitDecision, if_pos hsz, if_pos (Nat.zero_le _), List.drop_zero, hfind1]
          dsimp only
          have hsplit : 0 + (utf8Encode (s.take i)).length + lineEndingLen le =
              (utf8Encode (s.take (i + le.length))).length := by
            rw [Nat.zero_add, hE]
          rw [hsplit, if_pos (le_refl _), List.drop_length, List.take_length]
        have hstep : chunkStep utf8M chunkSize le [] 0 1 (utf8Encode s) =
            some ((utf8Encode (s.drop (i + le.length)), 0, 2),
              some (1, utf8Encode (s.take (i + le.length)))) := by
          rw [chunkStep]
          dsimp only
          rw [hEndPos, if_pos hEle, List.nil_append, hchunk1, hsd]
          dsimp only
          rw [if_pos hlt, List.nil_append, hdropBytes]
        rw [hstep]
        dsimp only
        rw [if_neg hencdrop]
        right
        exact ⟨i, rfl, hsz, hdrop, hsuf, rfl⟩
      · have hsd : splitDecision utf8M chunkSize le 0 1
            (utf8Encode (s.take (i + le.length))) =
            some (utf8Encode (s.take (i + le.length)), 0, 1, none) := by
          rw [splitDecision, if_neg hsz]
        have hstep : chunkStep utf8M chunkSize le [] 0 1 (utf8Encode s) =
            some ((utf8Encode s, 0, 1), none) := by
          rw [chunkStep]
          dsimp only
          rw [hEndPos, if_pos hEle, List.nil_append, hchunk1, hsd]
          dsimp only
          rw [if_pos hlt, hdropBytes, ← utf8Encode_append, List.take_append_drop]
        rw [hstep]
        dsimp only
        rw [if_neg hne']
        left
        rfl

theorem digitsGo_val : ∀ fuel n, n ≤ fuel → digitsVal (digitsGo fuel n) = n := by
  intro fuel
  induction fuel with
  | zero =>
    intro n hn
    interval_cases n
    rfl
  | succ fuel ih =>
    intro n hn
    cases n with
    | zero => rfl
    | succ n =>
      show digitsVal ((n + 1) % 10 :: digitsGo fuel ((n + 1) / 10)) = n + 1
      have hv : digitsVal (digitsGo fuel ((n + 1) / 10)) = (n + 1) / 10 :=
        ih _ (by omega)
      show (n + 1) % 10 + 10 * digitsVal (digitsGo fuel ((n + 1) / 10)) = n + 1
      rw [hv]
      omega

theorem digitsGo_lt_ten : ∀ fuel n d, d ∈ digitsGo fuel n → d < 10 := by
  intro fuel
  induction fuel with
  | zero =>
    intro n d hd
    cases n <;> cases hd
  | succ fuel ih =>
    intro n d hd
    cases n with
    | zero => cases hd
    | succ n =>
      rcases List.mem_cons.mp hd with h | h
      · subst h; omega
      · exact ih _ _ h

theorem charDigit_toNat : ∀ d, d < 10 → (Char.ofNat (48 + d)).toNat = 48 + d := by decide

theorem unpad3_foldl_shift (l : List Char) :
    ∀ acc, l.foldl (fun a c => a * 10 + (c.toNat - 48)) acc =
      acc * 10 ^ l.length + unpad3 l := by
  induction l with
  | nil =>
    intro acc
    simp [unpad3]
  | cons c t ih =>
    intro acc
    show t.foldl _ (acc * 10 + (c.toNat - 48)) = _
    rw [ih (acc * 10 + (c.toNat - 48))]
    have hu : unpad3 (c :: t) = (c.toNat - 48) * 10 ^ t.length + unpad3 t := by
      show t.foldl _ (0 * 10 + (c.toNat - 48)) = _
      rw [ih (0 * 10 + (c.toNat - 48))]
      ring_nf
    rw [hu]
    simp [List.length_cons, pow_succ]
    ring

theorem unpad3_rev_digits : ∀ ds : List Nat, (∀ d ∈ ds, d < 10) →
    unpad3 ((ds.reverse).map (fun d => Char.ofNat (48 + d))) = digitsVal ds := by
  intro ds
  induction ds with
  | nil =>
    intro _
    rfl
  | cons d t ih =>
    intro hd
    rw [List.reverse_cons, List.map_append]
    show ((t.reverse.map _) ++ [Char.ofNat (48 + d)]).foldl _ 0 = _
    rw [List.foldl_append]
    have hv : (t.reverse.map (fun d => Char.ofNat (48 + d))).foldl
        (fun a c => a * 10 + (c.toNat - 48)) 0 = digitsVal t :=
      ih (fun x hx => hd x (List.mem_cons_of_mem _ hx))
    rw [hv]
    show digitsVal t * 10 + ((Char.ofNat (48 + d)).toNat - 48) = d + 10 * digitsVal t
    rw [charDigit_toNat d (hd d (List.mem_cons_self _ _))]
    omega

theorem unpad3_zeros_append (k : Nat) (l : List Char) :
    unpad3 (List.replicate k '0' ++ l) = unpad3 l := by
  induction k with
  | zero => rfl
  | succ k ih =>
    show unpad3 ('0' :: (List.replicate k '0' ++ l)) = unpad3 l
    show (List.replicate k '0' ++ l).foldl _ (0 * 10 + ('0'.toNat - 48)) = _
    have h0 : (0 : Nat) * 10 + ('0'.toNat - 48) = 0 := rfl
    rw [h0]
    exact ih

theorem unpad3_pad3 (n : Nat) : unpad3 (pad3 n) = n := by
  rw [pad3, unpad3_zeros_append, decimalChars]
  by_cases hds : ((digitsGo n n).reverse).map (fun d => Char.ofNat (48 + d)) = []
  · have hnil : digitsGo n n = [] := by
      have hrev := List.map_eq_nil_iff.mp hds
      exact List.reverse_eq_nil_iff.mp hrev
    have hval := digitsGo_val n n (le_refl n)
    rw [hnil] at hval
    simp only [hds, if_pos]
    rw [← hval]
    rfl
  · simp only [hds, if_neg, ite_false]
    rw [unpad3_rev_digits _ (fun d hd => digitsGo_lt_ten n n d hd)]
    exact digitsGo_val n n (le_refl n)

theorem pad3_injective (i j : Nat) (h : pad3 i = pad3 j) : i = j := by
  have := congrArg unpad3 h
  rwa [unpad3_pad3, unpad3_pad3] at this

theorem pad3_digit_chars (n : Nat) : ∀ c ∈ pad3 n, 48 ≤ c.toNat ∧ c.toNat ≤ 57 := by
  intro c hc
  rw [pad3] at hc
  rcases List.mem_append.mp hc with h | h
  · have := List.eq_of_mem_replicate h
    subst this
    decide
  · rw [decimalChars] at h
    by_cases hds : ((digitsGo n n).reverse).map (fun d => Char.ofNat (48 + d)) = []
    · simp only [hds, if_pos] at h
      have := List.mem_singleton.mp h
      subst this
      decide
    · simp only [hds, if_neg, ite_false] at h
      obtain ⟨d, hd, hcd⟩ := List.mem_map.mp h
      have hd10 : d < 10 := digitsGo_lt_ten n n d (List.mem_reverse.mp hd)
      subst hcd
      rw [charDigit_toNat d hd10]
      omega

theorem unpad3_lt_pow (l : List Char) (hd : ∀ c ∈ l, 48 ≤ c.toNat ∧ c.toNat ≤ 57) :
    unpad3 l < 10 ^ l.length := by
  induction l with
  | nil => simp [unpad3]
  | cons c t ih =>
    have hc := hd c (List.mem_cons_self _ _)
    have hu : unpad3 (c :: t) = (c.toNat - 48) * 10 ^ t.length + unpad3 t := by
      show t.foldl _ (0 * 10 + (c.toNat - 48)) = _
      rw [unpad3_foldl_shift]
      ring_nf
    rw [hu]
    have ht := ih (fun x hx => hd x (List.mem_cons_of_mem _ hx))
    have hc9 : c.toNat - 48 ≤ 9 := by omega
    calc (c.toNat - 48) * 10 ^ t.length + unpad3 t
        < (c.toNat - 48) * 10 ^ t.length + 10 ^ t.length := by omega
      _ ≤ 9 * 10 ^ t.length + 10 ^ t.length := by
          have := Nat.mul_le_mul_right (10 ^ t.length) hc9
          omega
      _ = 10 ^ (t.length + 1) := by ring
      _ = 10 ^ (c :: t).length := by rw [List.length_cons]

theorem lexLt_of_unpad3_lt : ∀ (a b : List Char), a.length = b.length →
    (∀ c ∈ a, 48 ≤ c.toNat ∧ c.toNat ≤ 57) → (∀ c ∈ b, 48 ≤ c.toNat ∧ c.toNat ≤ 57) →
    unpad3 a < unpad3 b → lexLt a b = true := by
  intro a
  induction a with
  | nil =>
    intro b hlen _ _ hv
    cases b with
    | nil => simp [unpad3] at hv
    | cons d bs => cases hlen
  | cons c as ih =>
    intro b hlen hda hdb hv
    cases b with
    | nil => cases hlen
    | cons d bs =>
      have hlen' : as.length = bs.length := by
        simpa using hlen
      have hua : unpad3 (c :: as) = (c.toNat - 48) * 10 ^ as.length + unpad3 as := by
        show as.foldl _ (0 * 10 + (c.toNat - 48)) = _
        rw [unpad3_foldl_shift]
        ring_nf
      have hub : unpad3 (d :: bs) = (d.toNat - 48) * 10 ^ bs.length + unpad3 bs := by
        show bs.foldl _ (0 * 10 + (d.toNat - 48)) = _
        rw [unpad3_foldl_shift]
        ring_nf
      rw [hua, hub] at hv
      have hba := unpad3_lt_pow as (fun x hx => hda x (List.mem_cons_of_mem _ hx))
      have hbb := unpad3_lt_pow bs (fun x hx => hdb x (List.mem_cons_of_mem _ hx))
      have hc48 := hda c (List.mem_cons_self _ _)
      have hd48 := hdb d (List.mem_cons_self _ _)
      rw [lexLt]
      by_cases hcd : c.toNat < d.toNat
      · rw [if_pos hcd]
      · rw [if_neg hcd]
        have hcd' : c.toNat = d.toNat := by
          by_contra hne
          have hgt : d.toNat < c.toNat := by omega
          have : (d.toNat - 48) * 10 ^ bs.length + 10 ^ bs.length ≤
              (c.toNat - 48) * 10 ^ as.length := by
            rw [hlen']
            have h1 : d.toNat - 48 + 1 ≤ c.toNat - 48 := by omega
            calc (d.toNat - 48) * 10 ^ bs.length + 10 ^ bs.length
                = (d.toNat - 48 + 1) * 10 ^ bs.length := by ring
              _ ≤ (c.toNat - 48) * 10 ^ bs.length :=
                  Nat.mul_le_mul_right _ h1
          omega
        rw [if_pos hcd']
        apply ih bs hlen' (fun x hx => hda x (List.mem_cons_of_mem _ hx))
          (fun x hx => hdb x (List.mem_cons_of_mem _ hx))
        have hceq : c.toNat - 48 = d.toNat - 48 := by omega
        rw [hceq, hlen'] at hv
        omega

theorem decimalChars_length_le (k : Nat) (n : Nat) (h : n < 10 ^ k) (hk : 1 ≤ k) :
    (decimalChars n).length ≤ k := by
  have hdl : ∀ j fuel m, m < 10 ^ j → (digitsGo fuel m).length ≤ j := by
    intro j
    induction j with
    | zero =>
      intro fuel m hm
      have : m = 0 := by simpa using hm
      subst this
      cases fuel <;> simp [digitsGo]
    | succ j ih =>
      intro fuel m hm
      cases m with
      | zero => cases fuel <;> simp [digitsGo]
      | succ m =>
        cases fuel with
        | zero => simp [digitsGo]
        | succ fuel =>
          show ((m + 1) % 10 :: digitsGo fuel ((m + 1) / 10)).length ≤ j + 1
          rw [List.length_cons]
          have : (m + 1) / 10 < 10 ^ j := by
            rw [pow_succ] at hm
            omega
          have := ih fuel ((m + 1) / 10) this
          omega
  rw [decimalChars]
  by_cases hds : ((digitsGo n n).reverse).map (fun d => Char.ofNat (48 + d)) = []
  · simp only [hds, if_pos]
    simpa using hk
  · simp only [hds, if_neg, ite_false]
    rw [List.length_map, List.length_reverse]
    exact hdl k n n h

theorem pad3_length_of_le_999 (n : Nat) (h : n ≤ 999) : (pad3 n).length = 3 := by
  have hle : (decimalChars n).length ≤ 3 :=
    decimalChars_length_le 3 n (by omega) (by omega)
  rw [pad3, List.length_append, List.length_replicate]
  omega

theorem lexLt_append_same : ∀ (p a b : List Char), lexLt (p ++ a) (p ++ b) = lexLt a b := by
  intro p
  induction p with
  | nil => intro a b; rfl
  | cons c cs ih =>
    intro a b
    show lexLt (c :: (cs ++ a)) (c :: (cs ++ b)) = _
    rw [lexLt, if_neg (lt_irrefl _), if_pos rfl]
    exact ih a b

theorem lexLt_append_right : ∀ (a b ext : List Char), a.length = b.length →
    lexLt a b = true → lexLt (a ++ ext) (b ++ ext) = true := by
  intro a
  induction a with
  | nil =>
    intro b ext hlen h
    cases b with
    | nil => cases h
    | cons d bs => cases hlen
  | cons c as ih =>
    intro b ext hlen h
    cases b with
    | nil => cases hlen
    | cons d bs =>
      have hlen' : as.length = bs.length := by simpa using hlen
      rw [lexLt] at h
      show lexLt (c :: (as ++ ext)) (d :: (bs ++ ext)) = true
      rw [lexLt]
      by_cases hcd : c.toNat < d.toNat
      · rw [if_pos hcd]
      · rw [if_neg hcd] at h ⊢
        by_cases hceq : c.toNat = d.toNat
        · rw [if_pos hceq] at h ⊢
          exact ih bs ext hlen' h
        · rw [if_neg hceq] at h
          cases h

theorem chunkFilePath_injective (stem : List Char) (i j : Nat)
    (h : chunkFilePath stem i = chunkFilePath stem j) : i = j := by
  rw [chunkFilePath, chunkFilePath] at h
  have h1 := List.append_cancel_right h
  have h2 := List.append_cancel_left h1
  injection h2 with _ h3
  exact pad3_injective i j h3

theorem chunkFilePath_lexLt (stem : List Char) (i j : Nat) (hij : i < j) (hj : j ≤ 999) :
    lexLt (chunkFilePath stem i) (chunkFilePath stem j) = true := by
  rw [chunkFilePath, chunkFilePath, List.append_assoc, List.append_assoc,
    List.cons_append, List.cons_append,
    List.append_cons stem '.' (pad3 i ++ ['.', 'z', 's', 't']),
    List.append_cons stem '.' (pad3 j ++ ['.', 'z', 's', 't']), lexLt_append_same]
  apply lexLt_append_right _ _ _ (by rw [pad3_length_of_le_999 i (by omega),
    pad3_length_of_le_999 j hj])
  apply lexLt_of_unpad3_lt _ _ (by rw [pad3_length_of_le_999 i (by omega),
    pad3_length_of_le_999 j hj]) (pad3_digit_chars i) (pad3_digit_chars j)
  rw [unpad3_pad3, unpad3_pad3]
  exact hij

theorem fromArgs_error_dispatch (args : List (List Char)) (e : ConfigError)
    (h : fromArgs args = .error e) : mainDispatch args = .configErrorCleanExit e := by
  rw [mainDispatch, h]

theorem fromArgs_usage (args : List (List Char)) (h : args.length < 3) :
    fromArgs args = .error .usage := by
  rw [fromArgs, if_pos h]

theorem fromArgs_badChunkSize (args : List (List Char)) (h4 : 4 ≤ args.length)
    (hp : parseUsize (args.getD 3 []) = none) :
    fromArgs args = .error .badChunkSize := by
  rw [fromArgs, if_neg (by omega)]
  dsimp only
  rw [if_pos h4, hp]

theorem fromArgs_lineEndingError (args : List (List Char)) (v : Nat) (e : ConfigError)
    (h5 : 5 ≤ args.length) (hp : parseUsize (args.getD 3 []) = some v)
    (hle : parseLineEndingArg (args.getD 4 []) = .error e) :
    fromArgs args = .error e := by
  rw [fromArgs, if_neg (by omega)]
  dsimp only
  rw [if_pos (by omega), hp]
  dsimp only
  rw [if_pos h5, hle]

theorem parseLineEndingArg_emptyCustom (arg : List Char)
    (hup : toUpperL arg = "CUSTOM:".toList) :
    parseLineEndingArg arg = .error .emptyCustomLineEnding := by
  rw [parseLineEndingArg]
  dsimp only
  rw [hup]
  decide

theorem parseLineEndingArg_unknown (arg : List Char)
    (h1 : toUpperL arg ≠ "LF".toList) (h2 : toUpperL arg ≠ "CRLF".toList)
    (h3 : toUpperL arg ≠ "CR".toList)
    (h4 : ("CUSTOM:".toList).isPrefixOf (toUpperL arg) = false) :
    parseLineEndingArg arg = .error .badLineEnding := by
  rw [parseLineEndingArg]
  dsimp only
  rw [if_neg h1, if_neg h2, if_neg h3, if_neg (by rw [h4]; simp)]

theorem parseEncodingArg_unknown (arg : List Char)
    (h1 : toUpperL arg ≠ "UTF-8".toList) (h2 : toUpperL arg ≠ "GBK".toList) :
    parseEncodingArg arg = .error .badEncoding := by
  rw [parseEncodingArg]
  rw [if_neg h1, if_neg h2]

theorem fromArgs_encodingError (args : List (List Char)) (v : Nat) (le2 : List Nat)
    (e : ConfigError) (h6 : 6 ≤ args.length)
    (hp : parseUsize (args.getD 3 []) = some v)
    (hle : parseLineEndingArg (args.getD 4 []) = .ok le2)
    (hen : parseEncodingArg (args.getD 5 []) = .error e) :
    fromArgs args = .error e := by
  rw [fromArgs, if_neg (by omega)]
  dsimp only
  rw [if_pos (by omega), hp]
  dsimp only
  rw [if_pos (by omega), hle]
  rw [if_pos h6, hen]

/-- C1, amended: for every configuration and every input on which the run
completes without an out-of-bounds slice, concatenating the pre-compression
byte sequences of all emitted chunks in index order reproduces the input
byte-for-byte. -/
theorem c1_roundtrip (enc : EncodingM) (chunkSize : Nat) (lineEnding input : List Nat)
    (chunks : List (Nat × List Nat))
    (h : runChunker enc chunkSize lineEnding input = some chunks) :
    (chunks.map Prod.snd).flatten = input := by
  have hinv := chunkLoop_join enc chunkSize lineEnding input.length input [] 0 1 [] chunks
    (le_refl _) h
  simpa using hinv

theorem c1_roundtrip_witness :
    (([((1 : Nat), [97, 10]), (2, [98])] : List (Nat × List Nat)).map Prod.snd).flatten =
      [97, 10, 98] :=
  c1_roundtrip utf8M 2 [10] [97, 10, 98] [(1, [97, 10]), (2, [98])]
    (by rw [runChunker_eval _ _ _ _ (by decide) (by decide)]; decide)

/-- C1, counterexample: on the two-byte input 0xC8 0x0A (a lead byte with no
continuation, then a newline) with UTF-8, threshold 100 and line ending LF,
the re-encoded boundary offset overshoots the buffer, the run panics, and no
chunk sequence reproducing the input is ever emitted. -/
theorem c1_counterexample : ¬ RoundTripAt utf8M 100 [10] [200, 10] := by
  rintro ⟨chunks, hrun, _⟩
  have hnone : runChunker utf8M 100 [10] [200, 10] = none := by
    rw [runChunker_eval _ _ _ _ (by decide) (by decide)]
    decide
  rw [hnone] at hrun
  cases hrun

/-- C3, counterexample: on the 205-byte example input with a 100-byte
threshold, LF and UTF-8, the program does not emit the two chunks the claim
predicts. -/
theorem c3_counterexample :
    runChunker utf8M 100 [10] ([97, 10] ++ List.replicate 200 98 ++ [10, 99, 10]) ≠
      some [(1, [97, 10] ++ List.replicate 200 98 ++ [10]), (2, [99, 10])] := by
  rw [runChunker_eval _ _ _ _ (by decide) (by decide)]
  decide

/-- C3, amended: on the 205-byte example input with a 100-byte threshold, LF
and UTF-8, the program emits exactly one chunk holding the entire input: the
whole input arrives in one read and the cut is placed at the last line
ending of the accumulated data, which is the end of the input. -/
theorem c3_single_chunk :
    runChunker utf8M 100 [10] ([97, 10] ++ List.replicate 200 98 ++ [10, 99, 10]) =
      some [(1, [97, 10] ++ List.replicate 200 98 ++ [10, 99, 10])] := by
  rw [runChunker_eval _ _ _ _ (by decide) (by decide)]
  decide

/-- C8: find_last_line_ending re-encodes the replacement character produced
for the invalid byte 0x80, reporting offset 3 on a 2-byte span; the caller
then slices buffer[..4], which is out of bounds and panics. -/
theorem c8_out_of_bounds :
    find_last_line_ending [128, 10] [10] utf8M = some 3 ∧
      ¬ (3 + lineEndingLen [10] ≤ ([128, 10] : List Nat).length) := by
  decide

/-- C10: an empty input makes the loop exit on its first iteration: zero
chunks are emitted and no output file is created, whatever the
configuration. -/
theorem c10_empty_input (enc : EncodingM) (chunkSize : Nat) (lineEnding : List Nat) :
    runChunker enc chunkSize lineEnding [] = some [] := by
  rw [runChunker, chunkLoop_nil, if_pos rfl]
  rfl

/-- C2, amended: on an input that is valid UTF-8 with no leading BOM and
fits in one read, every chunk a completed run emits, except possibly the
last, decodes to text ending with the configured line ending. -/
theorem c2_line_integrity (text le : List Nat) (chunkSize : Nat)
    (chunks : List (Nat × List Nat))
    (hs : ∀ p ∈ text, ScalarValue p) (hh : text.head? ≠ some 0xFEFF)
    (hne : text ≠ []) (hlen : (utf8Encode text).length ≤ BUFFER_SIZE)
    (hrun : runChunker utf8M chunkSize le (utf8Encode text) = some chunks) :
    ∀ c ∈ chunks.dropLast, le.isSuffixOf (utf8M.decode c.2).1 = true := by
  rcases singleRead_valid text le chunkSize hs hh hne hlen with
    h1 | ⟨i, hi, hsz, hdrop, hsuf, h2⟩
  · rw [h1] at hrun
    injection hrun with h'
    subst h'
    intro c hc
    simp at hc
  · rw [h2] at hrun
    injection hrun with h'
    subst h'
    intro c hc
    have hc' : c = (1, utf8Encode (text.take (i + le.length))) := by
      simpa using hc
    subst hc'
    obtain ⟨hile, hpre, hmax⟩ := rfind_eq_some text le i hi
    have hm0 : i + le.length ≠ 0 := by
      intro h0
      have hle0 : le = [] := by
        cases le with
        | nil => rfl
        | cons a t => simp [List.length_cons] at h0
      have hslen : 0 < text.length := List.length_pos.mpr hne
      have hmx := hmax text.length (by omega) (le_refl _)
      rw [hle0] at hmx
      simp [List.isPrefixOf] at hmx
    have hdec : utf8M.decode (utf8Encode (text.take (i + le.length))) =
        (text.take (i + le.length), false) :=
      utf8M_decode_encode _ (fun p hp => hs p (List.mem_of_mem_take hp))
        (by rw [head?_take text _ hm0]; exact hh)
    rw [hdec]
    exact hsuf

theorem c2_line_integrity_witness :
    ([10] : List Nat).isSuffixOf (utf8M.decode ([97, 97, 10] : List Nat)).1 = true :=
  c2_line_integrity [97, 97, 10, 98, 98] [10] 1 [(1, [97, 97, 10]), (2, [98, 98])]
    (by decide) (by decide) (by decide) (by decide)
    (by rw [runChunker_eval _ _ _ _ (by decide) (by decide)]; decide)
    (1, [97, 97, 10]) (by decide)

/-- C2, counterexample: the 6-byte input 0x80 0x0A 0x61 0x61 0x61 0x61 with
threshold 0, LF, UTF-8 completes, but the invalid leading byte inflates the
re-encoded offset, so the first (non-final) emitted chunk is 0x80 0x0A 0x61
0x61, whose decoded text ends with a letter, not the line ending. -/
theorem c2_counterexample : ¬ LineIntegrityAt utf8M 0 [10] [128, 10, 97, 97, 97, 97] := by
  intro h
  have hrun : runChunker utf8M 0 [10] [128, 10, 97, 97, 97, 97] =
      some [(1, [128, 10, 97, 97]), (2, [97, 97])] := by
    rw [runChunker_eval _ _ _ _ (by decide) (by decide)]
    decide
  have h2 := h _ hrun (1, [128, 10, 97, 97]) (by decide)
  revert h2
  decide

/-- C4, amended: on an input that is valid UTF-8 with no leading BOM and
fits in one read, every non-final chunk has at least chunkSize bytes (the
cut is placed at the last line ending of the accumulated data, so the size
is in general not minimal). -/
theorem c4_threshold (text le : List Nat) (chunkSize : Nat)
    (chunks : List (Nat × List Nat))
    (hs : ∀ p ∈ text, ScalarValue p) (hh : text.head? ≠ some 0xFEFF)
    (hne : text ≠ []) (hlen : (utf8Encode text).length ≤ BUFFER_SIZE)
    (hrun : runChunker utf8M chunkSize le (utf8Encode text) = some chunks) :
    ∀ c ∈ chunks.dropLast, chunkSize ≤ c.2.length := by
  rcases singleRead_valid text le chunkSize hs hh hne hlen with
    h1 | ⟨i, hi, hsz, hdrop, hsuf, h2⟩
  · rw [h1] at hrun
    injection hrun with h'
    subst h'
    intro c hc
    simp at hc
  · rw [h2] at hrun
    injection hrun with h'
    subst h'
    intro c hc
    have hc' : c = (1, utf8Encode (text.take (i + le.length))) := by
      simpa using hc
    subst hc'
    exact hsz

theorem c4_threshold_witness : (2 : Nat) ≤ ([97, 10] : List Nat).length :=
  c4_threshold [97, 10, 98] [10] 2 [(1, [97, 10]), (2, [98])]
    (by decide) (by decide) (by decide) (by decide)
    (by rw [runChunker_eval _ _ _ _ (by decide) (by decide)]; decide)
    (1, [97, 10]) (by decide)

/-- C4, counterexample: three 6-byte lines followed by an unterminated byte,
with a 10-byte threshold, LF, UTF-8.  The single non-final chunk holds all
three lines (18 bytes), although the minimal line boundary of size at least
the threshold is 12 bytes and no line exceeds the threshold. -/
theorem c4_counterexample : ¬ ThresholdRespectAt utf8M 10 [10]
    ((List.replicate 5 97 ++ [10]) ++ (List.replicate 5 97 ++ [10]) ++
      (List.replicate 5 97 ++ [10]) ++ [120]) := by
  intro h
  have hrun : runChunker utf8M 10 [10]
      ((List.replicate 5 97 ++ [10]) ++ (List.replicate 5 97 ++ [10]) ++
        (List.replicate 5 97 ++ [10]) ++ [120]) =
      some [(1, (List.replicate 5 97 ++ [10]) ++ (List.replicate 5 97 ++ [10]) ++
        (List.replicate 5 97 ++ [10])), (2, [120])] := by
    rw [runChunker_eval _ _ _ _ (by decide) (by decide)]
    decide
  have h2 := h _ hrun (1, (List.replicate 5 97 ++ [10]) ++ (List.replicate 5 97 ++ [10]) ++
    (List.replicate 5 97 ++ [10])) (by decide)
  revert h2
  decide

/-- C5, amended: on spans that decode cleanly (valid UTF-8, no BOM),
find_last_line_ending returns none exactly when the decoded text has no
occurrence of the (non-empty) line ending, and otherwise returns the byte
offset of the FIRST byte of the rightmost occurrence: the byte length of the
encoded text before the match; that offset plus the byte length of the line
ending stays within the span. -/
theorem c5_contract :
    (∀ text le, (∀ p ∈ text, ScalarValue p) → text.head? ≠ some 0xFEFF → le ≠ [] →
      (find_last_line_ending (utf8Encode text) le utf8M = none ↔ rfind text le = none)) ∧
    (∀ text le i, (∀ p ∈ text, ScalarValue p) → text.head? ≠ some 0xFEFF → text ≠ [] →
      rfind text le = some i →
      find_last_line_ending (utf8Encode text) le utf8M =
        some ((utf8Encode (text.take i)).length) ∧
      utf8Encode (text.take (i + le.length)) =
        (utf8Encode text).take ((utf8Encode (text.take i)).length + lineEndingLen le) ∧
      (utf8Encode (text.take i)).length + lineEndingLen le ≤ (utf8Encode text).length) := by
  constructor
  · intro text le hs hh hle
    constructor
    · intro hf
      cases hrf : rfind text le with
      | none => rfl
      | some i =>
        by_cases hte : text = []
        · subst hte
          have hnone : rfind [] le = none := by
            cases le with
            | nil => exact absurd rfl hle
            | cons a t => rfl
          rw [hnone] at hrf
          cases hrf
        · rw [find_valid_some text le hs hh hte i hrf] at hf
          cases hf
    · intro hrf
      exact find_valid_none text le hs hh hrf
  · intro text le i hs hh hne hrf
    obtain ⟨hile, hpre, hmax⟩ := rfind_eq_some text le i hrf
    have htake := match_take text le i hpre hile
    have hE : (utf8Encode (text.take i)).length + lineEndingLen le =
        (utf8Encode (text.take (i + le.length))).length := by
      rw [htake, utf8Encode_append, lineEndingLen, List.length_append]
    refine ⟨find_valid_some text le hs hh hne i hrf, ?_, ?_⟩
    · rw [hE]
      exact (utf8Encode_take_bytes text (i + le.length)).symm
    · rw [hE]
      exact utf8Encode_take_len_le text _

theorem c5_contract_witness :
    find_last_line_ending (utf8Encode [97, 13, 10, 98]) [13, 10] utf8M =
      some ((utf8Encode (([97, 13, 10, 98] : List Nat).take 1)).length) ∧
    utf8Encode (([97, 13, 10, 98] : List Nat).take (1 + ([13, 10] : List Nat).length)) =
      (utf8Encode [97, 13, 10, 98]).take
        ((utf8Encode (([97, 13, 10, 98] : List Nat).take 1)).length + lineEndingLen [13, 10]) ∧
    (utf8Encode (([97, 13, 10, 98] : List Nat).take 1)).length + lineEndingLen [13, 10] ≤
      (utf8Encode ([97, 13, 10, 98] : List Nat)).length :=
  c5_contract.2 [97, 13, 10, 98] [13, 10] 1 (by decide) (by decide) (by decide) (by decide)

/-- C5, counterexample: for the span 0x61 0x0D 0x0A 0x62 with a CRLF line
ending, the occurrence occupies byte indices 1 and 2; its last byte is at
index 2, but find_last_line_ending returns 1, the index of its first
byte. -/
theorem c5_counterexample :
    find_last_line_ending [97, 13, 10, 98] [13, 10] utf8M = some 1 ∧
      (List.drop 1 [97, 13, 10, 98]).take 2 = [13, 10] ∧
      1 + ([13, 10] : List Nat).length - 1 = 2 ∧
      some (1 : Nat) ≠ some 2 := by
  decide

/-- C6: when the accumulated chunk (current chunk plus the newly appended
bytes) has reached the threshold but its decoded text contains no occurrence
of the line ending, the iteration emits nothing: the chunk keeps all bytes,
keeps its number, and keeps growing past the threshold; no cut happens. -/
theorem c6_no_line_ending_grows (enc : EncodingM) (chunkSize : Nat)
    (le currentChunk buffer : List Nat) (num : Nat)
    (hEnd : stepEndPos enc le buffer ≤ buffer.length)
    (hsz : chunkSize ≤ (currentChunk ++ buffer.take (stepEndPos enc le buffer)).length)
    (hnole : rfind
      (enc.decode (currentChunk ++ buffer.take (stepEndPos enc le buffer))).1 le = none) :
    chunkStep enc chunkSize le currentChunk 0 num buffer =
      some ((currentChunk ++ buffer, 0, num), none) ∧
    chunkSize ≤ (currentChunk ++ buffer).length := by
  have hfind : find_last_line_ending
      ((currentChunk ++ buffer.take (stepEndPos enc le buffer)).drop 0) le enc = none := by
    rw [List.drop_zero, find_last_line_ending]
    by_cases hnil : currentChunk ++ buffer.take (stepEndPos enc le buffer) = []
    · rw [if_pos hnil]
    · rw [if_neg hnil]
      dsimp only
      rw [hnole]
  constructor
  · rw [chunkStep]
    dsimp only
    rw [if_pos hEnd]
    have hsd : splitDecision enc chunkSize le 0 num
        (currentChunk ++ buffer.take (stepEndPos enc le buffer)) =
        some (currentChunk ++ buffer.take (stepEndPos enc le buffer), 0, num, none) := by
      rw [splitDecision, if_pos hsz, if_pos (Nat.zero_le _), hfind]
    rw [hsd]
    dsimp only
    by_cases hlt : stepEndPos enc le buffer < buffer.length
    · rw [if_pos hlt, List.append_assoc, List.take_append_drop]
    · rw [if_neg hlt]
      have heq : stepEndPos enc le buffer = buffer.length := by omega
      rw [heq, List.take_length]
  · have hlen : (buffer.take (stepEndPos enc le buffer)).length ≤ buffer.length := by
      rw [List.length_take]
      omega
    rw [List.length_append] at hsz ⊢
    omega

theorem c6_no_line_ending_grows_witness :
    chunkStep utf8M 2 [10] [97] 0 5 [98] = some (([97, 98], 0, 5), none) ∧
      (2 : Nat) ≤ ([97, 98] : List Nat).length :=
  c6_no_line_ending_grows utf8M 2 [10] [97] [98] 5 (by decide) (by decide) (by decide)

/-- C7, amended: a completed run emits chunk numbers exactly 1..N in order;
the output paths prefix.NNN.zst are collision-free (the zero-padded number
determines the index), and they are lexicographically sorted by index as
long as at most 999 chunks are emitted (three-digit zero padding). -/
theorem c7_indices_and_names :
    (∀ (enc : EncodingM) (chunkSize : Nat) (le input : List Nat)
      (chunks : List (Nat × List Nat)),
      runChunker enc chunkSize le input = some chunks →
      chunks.map Prod.fst = List.range' 1 chunks.length) ∧
    (∀ stem i j, chunkFilePath stem i = chunkFilePath stem j → i = j) ∧
    (∀ stem i j, i < j → j ≤ 999 →
      lexLt (chunkFilePath stem i) (chunkFilePath stem j) = true) := by
  refine ⟨?_, chunkFilePath_injective, chunkFilePath_lexLt⟩
  intro enc chunkSize le input chunks h
  exact chunkLoop_numbers enc chunkSize le input.length input [] 0 1 [] chunks
    (le_refl _) rfl rfl h

theorem c7_indices_and_names_witness :
    (([((1 : Nat), ([97, 10] : List Nat)), (2, [98])]).map Prod.fst =
      List.range' 1 (([((1 : Nat), ([97, 10] : List Nat)), (2, [98])]).length)) ∧
    lexLt (chunkFilePath ['o'] 12) (chunkFilePath ['o'] 13) = true :=
  ⟨c7_indices_and_names.1 utf8M 2 [10] [97, 10, 98] _
      (by rw [runChunker_eval _ _ _ _ (by decide) (by decide)]; decide),
    c7_indices_and_names.2.2 ['o'] 12 13 (by decide) (by decide)⟩

/-- C7, counterexample: the zero padding is three digits wide, so from the
thousandth chunk on the names stop sorting by index: out.1000.zst sorts
before out.999.zst. -/
theorem c7_counterexample :
    (999 : Nat) < 1000 ∧
      lexLt (chunkFilePath ['o'] 999) (chunkFilePath ['o'] 1000) = false := by
  decide

/-- C9: every configuration error is surfaced as an Err from from_args, and
main then prints it and returns Ok(()) before touching any file: a clean
exit with success status and no output written.  The parts cover too few
arguments, an unparsable chunk size, an empty custom line ending, an
unknown line-ending option, and an unsupported encoding. -/
theorem c9_config_error_clean_exit :
    (∀ args e, fromArgs args = .error e → mainDispatch args = .configErrorCleanExit e) ∧
    (∀ args, args.length < 3 → fromArgs args = .error .usage) ∧
    (∀ args, 4 ≤ args.length → parseUsize (args.getD 3 []) = none →
      fromArgs args = .error .badChunkSize) ∧
    (∀ arg, toUpperL arg = "CUSTOM:".toList →
      parseLineEndingArg arg = .error .emptyCustomLineEnding) ∧
    (∀ arg, toUpperL arg ≠ "LF".toList → toUpperL arg ≠ "CRLF".toList →
      toUpperL arg ≠ "CR".toList → ("CUSTOM:".toList).isPrefixOf (toUpperL arg) = false →
      parseLineEndingArg arg = .error .badLineEnding) ∧
    (∀ args v e, 5 ≤ args.length → parseUsize (args.getD 3 []) = some v →
      parseLineEndingArg (args.getD 4 []) = .error e → fromArgs args = .error e) ∧
    (∀ arg, toUpperL arg ≠ "UTF-8".toList → toUpperL arg ≠ "GBK".toList →
      parseEncodingArg arg = .error .badEncoding) ∧
    (∀ args v le2 e, 6 ≤ args.length → parseUsize (args.getD 3 []) = some v →
      parseLineEndingArg (args.getD 4 []) = .ok le2 →
      parseEncodingArg (args.getD 5 []) = .error e → fromArgs args = .error e) :=
  ⟨fromArgs_error_dispatch, fromArgs_usage, fromArgs_badChunkSize,
    parseLineEndingArg_emptyCustom, parseLineEndingArg_unknown,
    fromArgs_lineEndingError, parseEncodingArg_unknown, fromArgs_encodingError⟩

theorem c9_config_error_clean_exit_witness :
    mainDispatch [['p']] = .configErrorCleanExit .usage ∧
    mainDispatch [['p'], ['i'], ['o'], ['x']] = .configErrorCleanExit .badChunkSize ∧
    mainDispatch [['p'], ['i'], ['o'], ['5'], "custom:".toList] =
      .configErrorCleanExit .emptyCustomLineEnding ∧
    mainDispatch [['p'], ['i'], ['o'], ['5'], "tab".toList] =
      .configErrorCleanExit .badLineEnding ∧
    mainDispatch [['p'], ['i'], ['o'], ['5'], "lf".toList, "koi8".toList] =
      .configErrorCleanExit .badEncoding :=
  ⟨c9_config_error_clean_exit.1 _ _ (c9_config_error_clean_exit.2.1 _ (by decide)),
    c9_config_error_clean_exit.1 _ _
      (c9_config_error_clean_exit.2.2.1 _ (by decide) (by decide)),
    c9_config_error_clean_exit.1 _ _
      (c9_config_error_clean_exit.2.2.2.2.2.1 _ 5 _ (by decide) (by decide)
        (c9_config_error_clean_exit.2.2.2.1 _ (by decide))),
    c9_config_error_clean_exit.1 _ _
      (c9_config_error_clean_exit.2.2.2.2.2.1 _ 5 _ (by decide) (by decide)
        (c9_config_error_clean_exit.2.2.2.2.1 _ (by decide) (by decide) (by decide)
          (by decide))),
    c9_config_error_clean_exit.1 _ _
      (c9_config_error_clean_exit.2.2.2.2.2.2.2 _ 5 [10] _ (by decide) (by decide)
        (by decide) (c9_config_error_clean_exit.2.2.2.2.2.2.1 _ (by decide) (by decide)))⟩
